import Mathlib

/-!
Verification development for the ProjetoDadosPortal ingestion/scoring pipeline.

Shallow embedding conventions:
* Python `float` values are modelled as exact rationals (`ℚ`).
* `datetime` values are modelled as rationals measuring hours on a common
  axis; a `datetime` field that may be `None` is an `Option ℚ`.
* Python's `round(x, 2)` (banker's rounding, half to even) is `pyRound2`.
* Dict-shaped records are structures carrying the fields the embedded
  functions read, after the dict-key fallbacks in the source are resolved.
* The third-party fuzzy matcher `fuzz.partial_ratio` is an oracle parameter
  `pr : String → String → ℕ`; every theorem quantifies over it.
-/

/-- Python `round` to an integer: round half to even (banker's rounding). -/
def roundHalfEven (q : ℚ) : ℤ :=
  if q - (⌊q⌋ : ℚ) < 1/2 then ⌊q⌋
  else if 1/2 < q - (⌊q⌋ : ℚ) then ⌊q⌋ + 1
  else if ⌊q⌋ % 2 = 0 then ⌊q⌋ else ⌊q⌋ + 1

/-- Python `round(x, 2)`. -/
def pyRound2 (q : ℚ) : ℚ := (roundHalfEven (q * 100) : ℚ) / 100

/-- Python truthiness-aware `a or default` on an optional string:
`None` and `""` are falsy. -/
def strOr (o : Option String) (d : String) : String :=
  match o with
  | none => d
  | some s => if s = "" then d else s

namespace ContentAnalyzer

/-- Accent folding as performed by `unicodedata.normalize('NFKD', ·)` followed
by `encode('ASCII','ignore')` on the characters this repository handles:
an accented Latin letter decomposes into its base letter plus a combining
mark that the ASCII encoding drops; ASCII characters pass through; any
other character is dropped. -/
def asciiFold (c : Char) : Option Char :=
  if c.toNat ≤ 127 then some c
  else if c ∈ ['á', 'à', 'â', 'ã', 'ä', 'å'] then some 'a'
  else if c ∈ ['Á', 'À', 'Â', 'Ã', 'Ä', 'Å'] then some 'A'
  else if c ∈ ['é', 'è', 'ê', 'ë'] then some 'e'
  else if c ∈ ['É', 'È', 'Ê', 'Ë'] then some 'E'
  else if c ∈ ['í', 'ì', 'î', 'ï'] then some 'i'
  else if c ∈ ['Í', 'Ì', 'Î', 'Ï'] then some 'I'
  else if c ∈ ['ó', 'ò', 'ô', 'õ', 'ö'] then some 'o'
  else if c ∈ ['Ó', 'Ò', 'Ô', 'Õ', 'Ö'] then some 'O'
  else if c ∈ ['ú', 'ù', 'û', 'ü'] then some 'u'
  else if c ∈ ['Ú', 'Ù', 'Û', 'Ü'] then some 'U'
  else if c = 'ç' then some 'c'
  else if c = 'Ç' then some 'C'
  else if c = 'ñ' then some 'n'
  else if c = 'Ñ' then some 'N'
  else none

/-- Python `str.strip()` on a character list. -/
def pyStrip (l : List Char) : List Char :=
  ((l.dropWhile Char.isWhitespace).reverse.dropWhile Char.isWhitespace).reverse

/-- `ContentAnalyzer.normalize_text`: NFKD + ASCII-ignore, lowercase, strip. -/
def normalize_text (text : String) : String :=
  if text = "" then ""
  else String.mk (pyStrip ((text.toList.filterMap asciiFold).map Char.toLower))

/-- Worker for `pySplit`: `acc` holds the current word reversed. -/
def pySplitAux : List Char → List Char → List String
  | [], acc => if acc.isEmpty then [] else [String.mk acc.reverse]
  | c :: cs, acc =>
    if c.isWhitespace then
      if acc.isEmpty then pySplitAux cs []
      else String.mk acc.reverse :: pySplitAux cs []
    else pySplitAux cs (c :: acc)

/-- Python `str.split()` with no argument: split on whitespace runs,
dropping empty pieces. -/
def pySplit (s : String) : List String := pySplitAux s.toList []

/-- The connector words dropped from names (`conectivos` in the source). -/
def conectivos : List String := ["da", "de", "do", "das", "dos", "e"]

/-- `ContentAnalyzer.extract_name_variations`.  The Python source returns
`list(set(variations))` whose order is unspecified; we return the
deduplicated list, which has the same membership. -/
def extract_name_variations (full_name : String) : List String :=
  if full_name = "" then []
  else
    let normalized := normalize_text full_name
    let parts := pySplit normalized
    let significant_parts :=
      parts.filter (fun p => !(conectivos.contains p) && decide (2 < p.length))
    let v1 : List String :=
      if 2 ≤ significant_parts.length then
        [significant_parts.headD "" ++ " " ++ significant_parts.getLastD "",
         significant_parts.getLastD ""]
      else []
    let v2 : List String :=
      if significant_parts.isEmpty then [] else [significant_parts.headD ""]
    (normalized :: (v1 ++ v2)).dedup

/-- The significant tokens of a name as the source computes them:
not a connector and longer than 2 characters. -/
def significantParts (full_name : String) : List String :=
  (pySplit (normalize_text full_name)).filter
    (fun p => !(conectivos.contains p) && decide (2 < p.length))

end ContentAnalyzer

/-- Does the first list start the second? -/
def startsWithList : List Char → List Char → Bool
  | [], _ => true
  | _ :: _, [] => false
  | p :: ps, h :: hs => p = h && startsWithList ps hs

/-- Python substring test `pat in hay` (empty pattern always matches). -/
def containsSub (hay pat : List Char) : Bool :=
  match hay with
  | [] => pat.isEmpty
  | _ :: hs => startsWithList pat hay || containsSub hs pat

/-- The suffix of the second list after the first occurrence of the first. -/
def afterSub (pat : List Char) : List Char → Option (List Char)
  | [] => if pat.isEmpty then some [] else none
  | h :: hs =>
    if startsWithList pat (h :: hs) then some ((h :: hs).drop pat.length)
    else afterSub pat hs

/-- Split at the first character satisfying `p` (kept in the second part). -/
def breakAt (p : Char → Bool) : List Char → List Char × List Char
  | [] => ([], [])
  | c :: cs =>
    if p c then ([], c :: cs)
    else
      let r := breakAt p cs
      (c :: r.1, r.2)

/-- Fuelled worker for `pyCount`; the fuel is the haystack length, which
bounds the number of steps since every step consumes at least one
haystack character. -/
def countOccsFuel : ℕ → List Char → List Char → ℕ
  | 0, _, _ => 0
  | _ + 1, [], _ => 0
  | fuel + 1, h :: hs, pat =>
    if startsWithList pat (h :: hs) then
      1 + countOccsFuel fuel (hs.drop (pat.length - 1)) pat
    else countOccsFuel fuel hs pat

/-- Python `hay.count(pat)`: non-overlapping occurrences scanned from the
left; an empty pattern yields `len(hay) + 1`. -/
def pyCount (hay pat : String) : ℕ :=
  if pat = "" then hay.toList.length + 1
  else countOccsFuel hay.toList.length hay.toList pat.toList

def lowerStr (s : String) : String := String.mk (s.toList.map Char.toLower)

def startsWithStr (s pre : String) : Bool := startsWithList pre.toList s.toList

def endsWithStr (s suf : String) : Bool :=
  startsWithList suf.toList.reverse s.toList.reverse

def dropStr (s : String) (n : ℕ) : String := String.mk (s.toList.drop n)

/-- The components of `urllib.parse.urlparse` the embedded code reads. -/
structure ParsedUrl where
  netloc : String
  path : String
  query : String
deriving DecidableEq, Repr

/-- `urllib.parse.urlparse`, modelled for the absolute and relative HTTP
URLs this repository handles: the netloc follows `://` and runs to the
first `/`, `?` or `#`; the path runs to the first `?` or `#`; the query
follows `?` up to `#`. -/
def pyUrlparse (url : String) : ParsedUrl :=
  let splitPathQuery := fun (rest : List Char) =>
    let pq := breakAt (fun c => c = '?' || c = '#') rest
    let query := match pq.2 with
      | '?' :: qs => (breakAt (fun c => c = '#') qs).1
      | _ => []
    (String.mk pq.1, String.mk query)
  match afterSub "://".toList url.toList with
  | some rest =>
    let nl := breakAt (fun c => c = '/' || c = '?' || c = '#') rest
    let pq := splitPathQuery nl.2
    ⟨String.mk nl.1, pq.1, pq.2⟩
  | none =>
    let pq := splitPathQuery url.toList
    ⟨"", pq.1, pq.2⟩

/-- `urllib.parse.parse_qs` restricted to what the source reads: key/value
pairs in order, blank values dropped (the default `keep_blank_values`). -/
def pyParseQs (query : String) : List (String × String) :=
  ((query.toList.splitOn '&').map (fun kv =>
    let p := breakAt (fun c => c = '=') kv
    match p.2 with
    | '=' :: v => (String.mk p.1, String.mk v)
    | _ => (String.mk p.1, ""))).filter (fun p => p.2 ≠ "")

/-- First value for a key, as `(qs.get(k) or ...)[0]` reads it. -/
def qsGet (query : String) (k : String) : Option String :=
  ((pyParseQs query).find? (fun p => p.1 = k)).map (fun p => p.2)

namespace RelevanceEngine

/-- `RelevanceWeights` (floats modelled as exact rationals). -/
structure RelevanceWeights where
  recencia : ℚ
  mencao : ℚ
  fonte : ℚ
  engajamento : ℚ
deriving DecidableEq, Repr

/-- `DEFAULT_WEIGHTS = RelevanceWeights()`: 0.25 / 0.35 / 0.25 / 0.15. -/
def DEFAULT_WEIGHTS : RelevanceWeights := ⟨1/4, 7/20, 1/4, 3/20⟩

/-- The sources cache `_fontes_cache` as a list of
(domain, `peso_confiabilidade`) pairs in dict insertion order. -/
abbrev FontesCache := List (String × ℚ)

/-- `RelevanceEngine._extract_domain` (the embedded URL parser is total, so
the `except` fallback to `"outros"` cannot fire). -/
def extract_domain (url : String) : String :=
  let domain := lowerStr (pyUrlparse url).netloc
  if startsWithStr domain "www." then dropStr domain 4 else domain

/-- `RelevanceEngine._get_fonte_peso`: exact domain hit, else the first
cache entry related by domain suffix, else the default weight 1.0. -/
def get_fonte_peso (cache : FontesCache) (url : String) : ℚ :=
  let domain := extract_domain url
  match List.find? (fun e => e.1 = domain) cache with
  | some e => e.2
  | none =>
    match List.find? (fun e => endsWithStr domain e.1 || endsWithStr e.1 domain) cache with
    | some e => e.2
    | none => 1

/-- `RelevanceEngine.calcular_score_recencia`.  Timestamps are rationals in
hours on a shared axis, so `delta.total_seconds() / 3600` is
`agora - pub`; a missing timestamp scores 50. -/
def calcular_score_recencia (publicado_em : Option ℚ) (agora : ℚ) : ℚ :=
  match publicado_em with
  | none => 50
  | some pub => pyRound2 (max 0 (100 - (agora - pub) * 2))

/-- One iteration of the variation loop inside
`ContentAnalyzer.analyze_mentions`, acting on the state
(mencao_titulo, mencoes_conteudo, max_similarity). -/
def mention_step (pr : String → String → ℕ) (threshold : ℕ)
    (titulo_norm conteudo_norm : String) (st : Bool × ℕ × ℕ)
    (variation : String) : Bool × ℕ × ℕ :=
  let st1 : Bool × ℕ :=
    if containsSub titulo_norm.toList variation.toList then (true, 100)
    else
      let similarity := pr variation titulo_norm
      if threshold ≤ similarity then (true, max st.2.2 similarity)
      else (st.1, st.2.2)
  if conteudo_norm ≠ "" then
    let exact_count := pyCount conteudo_norm variation
    (st1.1, st.2.1 + exact_count,
      if 0 < exact_count then max st1.2 100 else st1.2)
  else (st1.1, st.2.1, st1.2)

/-- `ContentAnalyzer.analyze_mentions`, parametric in the third-party
`fuzz.partial_ratio` oracle `pr`. -/
def analyze_mentions (pr : String → String → ℕ) (threshold : ℕ)
    (titulo conteudo nome_politico : String) : Bool × ℕ × ℕ :=
  (ContentAnalyzer.extract_name_variations nome_politico).foldl
    (mention_step pr threshold (ContentAnalyzer.normalize_text titulo)
      (ContentAnalyzer.normalize_text conteudo))
    (false, 0, 0)

/-- Python falsiness of an optional string (`None` and `""`). -/
def pyFalsyStr (o : Option String) : Bool :=
  match o with
  | none => true
  | some s => s = ""

/-- `RelevanceEngine.calcular_score_mencao` (threshold 85, the
`ContentAnalyzer` default used by the engine). -/
def calcular_score_mencao (pr : String → String → ℕ)
    (titulo conteudo : String) (nome_politico : Option String) : ℚ × Bool × ℕ :=
  if pyFalsyStr nome_politico then (0, false, 0)
  else
    let r := analyze_mentions pr 85 titulo conteudo (nome_politico.getD "")
    let score : ℚ := (if r.1 then 50 else 0) + (min 50 (r.2.1 * 10) : ℕ)
    (pyRound2 score, r.1, r.2.1)

/-- `RelevanceEngine.calcular_score_fonte`. -/
def calcular_score_fonte (cache : FontesCache) (url : String) : ℚ :=
  pyRound2 (min 100 (get_fonte_peso cache url * 50))

/-- `RelevanceEngine.calcular_score_engajamento`. -/
def calcular_score_engajamento
    (compartilhamentos comentarios likes : ℕ) : ℚ :=
  pyRound2 (min 100 (((compartilhamentos * 3 + comentarios * 2 + likes : ℕ) : ℚ) / 10))

/-- A news record as `calcular_relevancia` reads it after resolving the
dict-key fallbacks (`titulo`/`title`,
`conteudo_completo`/`conteudo`/`description`) and ISO timestamp parsing;
a string that fails to parse becomes `none`. -/
structure Noticia where
  titulo : String
  conteudo : String
  url : String
  publicado_em : Option ℚ
deriving DecidableEq, Repr

/-- Engagement counters (`engajamento or {}` resolved to zeros). -/
structure Engajamento where
  compartilhamentos : ℕ
  comentarios : ℕ
  likes : ℕ
deriving DecidableEq, Repr

/-- The score dict returned by `RelevanceEngine.calcular_relevancia`
(the `fonte_id`/`fonte_nome` passthrough fields are not modelled). -/
structure Scores where
  score_recencia : ℚ
  score_mencao : ℚ
  score_fonte : ℚ
  score_engajamento : ℚ
  relevancia_total : ℚ
  mencao_titulo : Bool
  mencao_conteudo : ℕ
deriving DecidableEq, Repr

/-- `RelevanceEngine.calcular_relevancia`, with the evaluation instant
`agora` (taken from `datetime.now` in the source) passed explicitly. -/
def calcular_relevancia (weights : RelevanceWeights) (cache : FontesCache)
    (pr : String → String → ℕ) (noticia : Noticia)
    (nome_politico : Option String) (eng : Engajamento) (agora : ℚ) : Scores :=
  let score_recencia := calcular_score_recencia noticia.publicado_em agora
  let m := calcular_score_mencao pr noticia.titulo noticia.conteudo nome_politico
  let score_fonte := calcular_score_fonte cache noticia.url
  let score_engajamento :=
    calcular_score_engajamento eng.compartilhamentos eng.comentarios eng.likes
  let relevancia_total :=
    score_recencia * weights.recencia +
    m.1 * weights.mencao +
    score_fonte * weights.fonte +
    score_engajamento * weights.engajamento
  ⟨score_recencia, m.1, score_fonte, score_engajamento,
    pyRound2 relevancia_total, m.2.1, m.2.2⟩

end RelevanceEngine

namespace NewsAggregator

/-- A candidate news record as the aggregator reads it: the dict keys
`url`, `conteudo_completo` and `publicado_em` (the latter already
converted by `_as_datetime`, hours on a shared axis); `titulo` is carried
as inert payload so records can be told apart. -/
structure NoticiaRec where
  titulo : String
  url : String
  conteudo_completo : Option String
  publicado_em : Option ℚ
deriving DecidableEq, Repr

/-- `NewsAggregator._normalize_url`: unwrap Google News wrappers via the
`url`/`q`/`u` query parameters, lowercase the host, strip a leading
`www.`, trim trailing `/` from the path, and key on host+path.  The
embedded URL parser is total, so the `except` fallback cannot fire. -/
def normalize_url (url : String) : String :=
  if url = "" then ""
  else
    let parsed := pyUrlparse url
    let parsed :=
      if parsed.netloc ≠ "" &&
          containsSub (lowerStr parsed.netloc).toList "news.google.".toList then
        match (qsGet parsed.query "url" <|> qsGet parsed.query "q" <|>
            qsGet parsed.query "u") with
        | some real =>
          if startsWithStr real "http" then pyUrlparse real else parsed
        | none => parsed
      else parsed
    let clean_path := String.mk ((parsed.path.toList.reverse.dropWhile
      (fun c => c = '/')).reverse)
    let netloc := lowerStr parsed.netloc
    let netloc := if startsWithStr netloc "www." then dropStr netloc 4 else netloc
    lowerStr (netloc ++ clean_path)

/-- `NewsAggregator._extract_domain`: host, lowercased, `www.` stripped;
empty string when there is no URL. -/
def extract_domain (url : String) : String :=
  if url = "" then ""
  else
    let netloc := lowerStr (pyUrlparse url).netloc
    if startsWithStr netloc "www." then dropStr netloc 4 else netloc

/-- Length of the record's full text, `len(… or "")` in the source. -/
def conteudoLen (n : NoticiaRec) : ℕ := (n.conteudo_completo.getD "").length

/-- Update the ordered url-map of `_remove_duplicates` at one key:
first occurrence inserts, a later record replaces the stored one only when
its full text is strictly longer. -/
def dedupUpd : List (String × NoticiaRec) → String → NoticiaRec →
    List (String × NoticiaRec)
  | [], k, n => [(k, n)]
  | e :: es, k, n =>
    if e.1 = k then
      (if conteudoLen e.2 < conteudoLen n then (k, n) else e) :: es
    else e :: dedupUpd es k n

/-- `NewsAggregator._remove_duplicates`: fold records into a url-keyed map
(dict insertion order preserved) and return its values. -/
def remove_duplicates (noticias : List NoticiaRec) : List NoticiaRec :=
  (noticias.foldl (fun m n => dedupUpd m (normalize_url n.url) n) []).map
    (fun e => e.2)

/-- Strict "later than" on optional publication instants, a missing
instant behaving as `datetime.min` (the sort key of
`_select_latest_unique_portals`). -/
def pubLt : Option ℚ → Option ℚ → Bool
  | none, none => false
  | none, some _ => true
  | some _, none => false
  | some x, some y => decide (x < y)

/-- Stable insertion for a descending sort by publication instant: the new
record goes after every earlier record whose key is not strictly
smaller. -/
def insertPubDesc (x : NoticiaRec) : List NoticiaRec → List NoticiaRec
  | [] => [x]
  | e :: es =>
    if pubLt e.publicado_em x.publicado_em then x :: e :: es
    else e :: insertPubDesc x es

/-- Python `sorted(noticias, key=sort_key, reverse=True)`: a stable sort,
descending by publication instant with missing instants last. -/
def sortPubDesc (l : List NoticiaRec) : List NoticiaRec :=
  l.foldl (fun acc x => insertPubDesc x acc) []

/-- The admission walk of `_select_latest_unique_portals`: skip empty
URLs, normalized-URL duplicates and already-seen domains; stop as soon as
the output reaches `limit`. -/
def selectLoop (limit : ℕ) :
    List NoticiaRec → List NoticiaRec → List String → List String → List NoticiaRec
  | [], out, _, _ => out
  | n :: rest, out, seen_domains, seen_urls =>
    let url := String.mk (ContentAnalyzer.pyStrip n.url.toList)
    if url = "" then selectLoop limit rest out seen_domains seen_urls
    else
      let norm := normalize_url url
      if seen_urls.contains norm then selectLoop limit rest out seen_domains seen_urls
      else
        let domain := extract_domain url
        if domain ≠ "" && seen_domains.contains domain then
          selectLoop limit rest out seen_domains seen_urls
        else
          let out2 := out ++ [n]
          let seen_urls2 := seen_urls ++ [norm]
          let seen_domains2 :=
            if domain ≠ "" then seen_domains ++ [domain] else seen_domains
          if limit ≤ out2.length then out2
          else selectLoop limit rest out2 seen_domains2 seen_urls2

/-- `NewsAggregator._select_latest_unique_portals`. -/
def select_latest_unique_portals (noticias : List NoticiaRec) (limit : ℕ) :
    List NoticiaRec :=
  if noticias = [] then []
  else selectLoop limit (sortPubDesc noticias) [] [] []

/-- The politician-scope quality filter of
`NewsAggregator.coletar_noticias_politico` (engine scores merged into the
record): keep iff title mention, or a body mention, or mention score
over 20. -/
def passes_quality_filter (s : RelevanceEngine.Scores) : Bool :=
  s.mencao_titulo || decide (0 < s.mencao_conteudo) ||
    decide ((20:ℚ) < s.score_mencao)

end NewsAggregator

namespace Database

/-- A row of the `social_mentions` table, reduced to the columns the
conflict analysis needs; `payload` stands for every remaining column. -/
structure SocialMention where
  politico_id : ℕ
  plataforma : String
  mention_id : String
  payload : String
deriving DecidableEq, Repr

/-- One PostgREST upsert with `on_conflict="plataforma,mention_id"`: the
row replaces an existing row sharing the two conflict columns, otherwise
it is appended. -/
def insert_social_mention : List SocialMention → SocialMention →
    List SocialMention
  | [], m => [m]
  | r :: rs, m =>
    if r.plataforma = m.plataforma && r.mention_id = m.mention_id then m :: rs
    else r :: insert_social_mention rs m

/-- `Database.insert_social_mentions_batch` with the same conflict
columns, modelled row by row.  (PostgREST would reject a batch holding
two rows with equal conflict keys; such batches are outside this
model.) -/
def insert_social_mentions_batch (table : List SocialMention)
    (mentions : List SocialMention) : List SocialMention :=
  mentions.foldl insert_social_mention table

/-- At most one row per (plataforma, mention_id) pair. -/
def MentionKeyUnique (table : List SocialMention) : Prop :=
  List.Pairwise
    (fun a b => a.plataforma ≠ b.plataforma ∨ a.mention_id ≠ b.mention_id) table

/-- A row of `portal_trending_topics`. -/
structure TrendingTopic where
  category : String
  rank : ℕ
  titulo : String
deriving DecidableEq, Repr

/-- The delete step of `Database.update_trending_topics`: remove every row
of the category. -/
def trendingDelete (table : List TrendingTopic) (category : String) :
    List TrendingTopic :=
  table.filter (fun t => t.category ≠ category)

/-- The insert step of `Database.update_trending_topics`: stamp the
category on each topic and append. -/
def trendingInsert (table : List TrendingTopic)
    (topics : List TrendingTopic) (category : String) : List TrendingTopic :=
  table ++ topics.map (fun t => { t with category := category })

/-- `Database.update_trending_topics`: the delete step followed by the
insert step.  The two steps are separate store calls, so a concurrent
reader can run between them. -/
def update_trending_topics (table : List TrendingTopic)
    (topics : List TrendingTopic) (category : String) : List TrendingTopic :=
  trendingInsert (trendingDelete table category) topics category

/-- Stable ascending insertion by rank. -/
def insertRankAsc (x : TrendingTopic) : List TrendingTopic → List TrendingTopic
  | [] => [x]
  | e :: es => if x.rank < e.rank then x :: e :: es else e :: insertRankAsc x es

/-- `Database.get_trending_topics` with a category filter: the category's
rows ordered by rank ascending. -/
def get_trending_topics (table : List TrendingTopic) (category : String) :
    List TrendingTopic :=
  (table.filter (fun t => t.category = category)).foldl
    (fun acc x => insertRankAsc x acc) []

/-- A row of `noticias` as `_diversificar_noticias_por_fonte` reads it. -/
structure DBNoticia where
  url : Option String
  fonte_nome : Option String
  fonte_id : Option String
  relevancia_total : Option ℚ
deriving DecidableEq, Repr

/-- `noticia.get("fonte_nome") or noticia.get("fonte_id") or
"desconhecida"`. -/
def fonteOf (n : DBNoticia) : String :=
  strOr n.fonte_nome (strOr n.fonte_id "desconhecida")

/-- `noticia.get("relevancia_total") or 0`. -/
def relOf (n : DBNoticia) : ℚ := n.relevancia_total.getD 0

/-- Append a record to its source's group (dict insertion order). -/
def groupUpd : List (String × List DBNoticia) → String → DBNoticia →
    List (String × List DBNoticia)
  | [], k, n => [(k, [n])]
  | e :: es, k, n =>
    if e.1 = k then (k, e.2 ++ [n]) :: es else e :: groupUpd es k n

/-- The `por_fonte` grouping of `_diversificar_noticias_por_fonte`. -/
def porFonte (noticias : List DBNoticia) : List (String × List DBNoticia) :=
  noticias.foldl (fun m n => groupUpd m (fonteOf n) n) []

/-- `max(n.get("relevancia_total") or 0 for n in group)`. -/
def bestOf : List DBNoticia → ℚ
  | [] => 0
  | n :: ns => ns.foldl (fun a m => max a (relOf m)) (relOf n)

/-- Stable insertion for the descending sort of sources by their best
score (`fontes_ordenadas`). -/
def insertBestDesc (x : String × List DBNoticia) :
    List (String × List DBNoticia) → List (String × List DBNoticia)
  | [] => [x]
  | e :: es =>
    if bestOf e.2 < bestOf x.2 then x :: e :: es else e :: insertBestDesc x es

/-- `sorted(por_fonte.keys(), key=best score, reverse=True)`, carried with
each source's (ordered) records. -/
def sortGroupsDesc (groups : List (String × List DBNoticia)) :
    List (String × List DBNoticia) :=
  groups.foldl (fun acc x => insertBestDesc x acc) []

/-- The inner `while` of the round robin: advance this source's index past
records whose URL was already taken. -/
def skipSeen (seen : List (Option String)) :
    List DBNoticia → Option (DBNoticia × List DBNoticia)
  | [] => none
  | n :: ns => if seen.contains n.url then skipSeen seen ns else some (n, ns)

/-- One pass of the round-robin `for fonte in fontes_ordenadas` loop.
Returns the remaining groups, the result list, the seen URLs, and whether
some record was admitted (`adicionou_alguma`). -/
def rrPass (limit : ℕ) :
    List (String × List DBNoticia) → List DBNoticia → List (Option String) →
      Bool →
      List (String × List DBNoticia) × List DBNoticia × List (Option String) × Bool
  | [], res, seen, added => ([], res, seen, added)
  | (f, lst) :: gs, res, seen, added =>
    if limit ≤ res.length then ((f, lst) :: gs, res, seen, added)
    else
      match skipSeen seen lst with
      | none =>
        let r := rrPass limit gs res seen added
        ((f, []) :: r.1, r.2.1, r.2.2.1, r.2.2.2)
      | some (n, rest) =>
        let r := rrPass limit gs (res ++ [n]) (seen ++ [n.url]) true
        ((f, rest) :: r.1, r.2.1, r.2.2.1, r.2.2.2)

/-- The outer `while len(resultado) < limit` loop, fuelled: every
continuing iteration admitted at least one record, and at most
`len(noticias)` records exist, so `len(noticias) + 1` iterations always
reach the source's exit conditions. -/
def rrLoop (limit : ℕ) :
    ℕ → List (String × List DBNoticia) → List DBNoticia →
      List (Option String) → List DBNoticia
  | 0, _, res, _ => res
  | fuel + 1, gs, res, seen =>
    if limit ≤ res.length then res
    else
      let r := rrPass limit gs res seen false
      if r.2.2.2 then rrLoop limit fuel r.1 r.2.1 r.2.2.1
      else r.2.1

/-- `Database._diversificar_noticias_por_fonte`. -/
def diversificar_noticias_por_fonte (noticias : List DBNoticia) (limit : ℕ) :
    List DBNoticia :=
  if noticias = [] then []
  else
    let groups := porFonte noticias
    if groups.length ≤ 1 then noticias.take limit
    else rrLoop limit (noticias.length + 1) (sortGroupsDesc groups) [] []

end Database

namespace TopicAnalyzer

/-- `TopicAnalyzer.CATEGORIAS`. -/
def CATEGORIAS : List String :=
  ["Saúde", "Educação", "Segurança", "Economia", "Infraestrutura",
   "Meio Ambiente", "Corrupção", "Política", "Social", "Cultura",
   "Tecnologia", "Agronegócio", "Outro"]

/-- A raw classification object as parsed from the model's JSON; a missing
key is `none`. -/
structure RawCls where
  assunto : Option String
  assunto_detalhe : Option String
  sentimento : Option String
deriving DecidableEq, Repr

/-- A normalized classification. -/
structure Cls where
  assunto : String
  assunto_detalhe : String
  sentimento : String
deriving DecidableEq, Repr

/-- `TopicAnalyzer._classificacao_padrao`. -/
def classificacao_padrao : Cls := ⟨"Outro", "", "neutro"⟩

/-- `TopicAnalyzer._normalizar_resultado`. -/
def normalizar_resultado (result : RawCls) : Cls :=
  let assunto := result.assunto.getD "Outro"
  let assunto := if CATEGORIAS.contains assunto then assunto else "Outro"
  let sentimento := lowerStr (result.sentimento.getD "neutro")
  let sentimento :=
    if ["positivo", "negativo", "neutro"].contains sentimento then sentimento
    else "neutro"
  let detalhe := result.assunto_detalhe.getD ""
  let detalhe :=
    if 150 < detalhe.length then String.mk (detalhe.toList.take 147) ++ "..."
    else detalhe
  ⟨assunto, detalhe, sentimento⟩

/-- A mention as `classificar_batch` reads it (`conteudo` key). -/
structure MencaoIn where
  conteudo : Option String
deriving DecidableEq, Repr

/-- Batches of `batch_size = 5`, the default every caller uses. -/
def chunk5 : List MencaoIn → List (List MencaoIn)
  | [] => []
  | c :: cs => ((c :: cs).take 5) :: chunk5 ((c :: cs).drop 5)
termination_by l => l.length
decreasing_by
  simp only [List.length_drop, List.length_cons]
  omega

/-- `TopicAnalyzer._classificar_batch_interno`, parametric in the LLM
endpoint `oracle` (one call per invocation; `Except.error` stands for any
exception thrown while calling or parsing).  When no mention has a
non-empty body the source returns defaults without calling the endpoint.
Returns the classifications and the number of endpoint calls. -/
def classificar_batch_interno
    (oracle : List MencaoIn → Except String (List RawCls))
    (batch : List MencaoIn) : Except String (List Cls) × ℕ :=
  let mencoes_texto := batch.filter (fun m => (m.conteudo.getD "") ≠ "")
  if mencoes_texto.isEmpty then
    (Except.ok (batch.map (fun _ => classificacao_padrao)), 0)
  else
    match oracle batch with
    | Except.error e => (Except.error e, 1)
    | Except.ok classificacoes =>
      (Except.ok (classificacoes.map normalizar_resultado), 1)

/-- Distribute the classifications of one batch over its mentions:
position `j` gets the `j`-th classification, or the default when the
model returned fewer entries; on an exception every mention of the batch
gets the default. -/
def applyBatch (batch : List MencaoIn) (r : Except String (List Cls)) :
    List (MencaoIn × Cls) :=
  match r with
  | Except.error _ => batch.map (fun m => (m, classificacao_padrao))
  | Except.ok cls =>
    batch.enum.map (fun p =>
      (p.2, (cls.get? p.1).getD classificacao_padrao))

/-- `TopicAnalyzer.classificar_batch`: when the client is not configured,
every mention gets the default classification and the endpoint is never
called; otherwise the mentions are processed in batches of 5.  Returns
the classified mentions and the number of endpoint calls. -/
def classificar_batch (available : Bool)
    (oracle : List MencaoIn → Except String (List RawCls))
    (mencoes : List MencaoIn) : List (MencaoIn × Cls) × ℕ :=
  if !available then
    (mencoes.map (fun m => (m, classificacao_padrao)), 0)
  else
    (chunk5 mencoes).foldl
      (fun acc batch =>
        let r := classificar_batch_interno oracle batch
        (acc.1 ++ applyBatch batch r.1, acc.2 + r.2))
      ([], 0)

end TopicAnalyzer

namespace SocialMentions

/-- A stored mention as `_agregar_topicos_politico` reads it. -/
structure MencaoAg where
  assunto : Option String
  sentimento : Option String
  engagement_score : Option ℚ
  posted_at : Option ℚ
deriving DecidableEq, Repr

/-- `mencao.get("assunto") or "Outro"`. -/
def subjectOf (m : MencaoAg) : String := strOr m.assunto "Outro"

/-- `float(mencao.get("engagement_score", 0) or 0)`. -/
def engOf (m : MencaoAg) : ℚ := m.engagement_score.getD 0

/-- One per-subject accumulator row (the period fields and the
`politico_id` are fixed per run and omitted). -/
structure TopicAgg where
  assunto : String
  total_mencoes : ℕ
  mencoes_positivas : ℕ
  mencoes_negativas : ℕ
  mencoes_neutras : ℕ
  engagement_total : ℚ
  ultima_mencao : Option ℚ
deriving DecidableEq, Repr

/-- The fresh accumulator created when a subject is first seen. -/
def initAgg (assunto : String) : TopicAgg := ⟨assunto, 0, 0, 0, 0, 0, none⟩

/-- Fold one mention into its subject's accumulator, as the body of the
`for mencao in mencoes` loop does. -/
def addMencao (a : TopicAgg) (m : MencaoAg) : TopicAgg :=
  let a := { a with
    total_mencoes := a.total_mencoes + 1,
    engagement_total := a.engagement_total + engOf m }
  let a :=
    if m.sentimento = some "positivo" then
      { a with mencoes_positivas := a.mencoes_positivas + 1 }
    else if m.sentimento = some "negativo" then
      { a with mencoes_negativas := a.mencoes_negativas + 1 }
    else { a with mencoes_neutras := a.mencoes_neutras + 1 }
  match m.posted_at with
  | none => a
  | some t =>
    match a.ultima_mencao with
    | none => { a with ultima_mencao := some t }
    | some u => if u < t then { a with ultima_mencao := some t } else a

/-- Update the subject-keyed accumulator map (dict insertion order). -/
def aggUpd : List (String × TopicAgg) → String → MencaoAg →
    List (String × TopicAgg)
  | [], k, m => [(k, addMencao (initAgg k) m)]
  | e :: es, k, m =>
    if e.1 = k then (k, addMencao e.2 m) :: es else e :: aggUpd es k m

/-- The aggregation loop of
`SocialMentionsAggregator._agregar_topicos_politico`: fold the window's
mentions into per-subject rows. -/
def agregar_topicos (mencoes : List MencaoAg) : List (String × TopicAgg) :=
  mencoes.foldl (fun acc m => aggUpd acc (subjectOf m) m) []

end SocialMentions

namespace NewsAggregator

/-- The canonical key of a record: its normalized URL. -/
def canonKey (n : NoticiaRec) : String := normalize_url n.url

/-- The survivor of a sequence of collisions on one canonical key:
start from the first record and replace only on strictly longer
full text (the `else` branch of `_remove_duplicates`). -/
def pickBest : NoticiaRec → List NoticiaRec → NoticiaRec
  | a, [] => a
  | a, n :: ns => pickBest (if conteudoLen a < conteudoLen n then n else a) ns

/-- The url-keyed map accumulated by `_remove_duplicates`. -/
def dedupMap (l : List NoticiaRec) : List (String × NoticiaRec) :=
  l.foldl (fun m n => dedupUpd m (normalize_url n.url) n) []

end NewsAggregator

namespace NewsAggregator

/-- The host used for the one-per-portal rule of
`_select_latest_unique_portals`: the record's URL stripped, then
`_extract_domain`. -/
def recDomain (n : NoticiaRec) : String :=
  extract_domain (String.mk (ContentAnalyzer.pyStrip n.url.toList))

/-- The S3 scenario input: 12 candidate records over the 4 distinct hosts
a.com, b.com, c.com, d.com, with pairwise distinct URLs and strictly
decreasing publication instants. -/
def s3Input : List NoticiaRec :=
  [⟨"r1", "https://a.com/1", none, some 12⟩,
   ⟨"r2", "https://b.com/2", none, some 11⟩,
   ⟨"r3", "https://c.com/3", none, some 10⟩,
   ⟨"r4", "https://d.com/4", none, some 9⟩,
   ⟨"r5", "https://a.com/5", none, some 8⟩,
   ⟨"r6", "https://b.com/6", none, some 7⟩,
   ⟨"r7", "https://c.com/7", none, some 6⟩,
   ⟨"r8", "https://d.com/8", none, some 5⟩,
   ⟨"r9", "https://a.com/9", none, some 4⟩,
   ⟨"r10", "https://b.com/10", none, some 3⟩,
   ⟨"r11", "https://c.com/11", none, some 2⟩,
   ⟨"r12", "https://d.com/12", none, some 1⟩]

end NewsAggregator

namespace Database

/-- The first record of each group (junk default for an empty group; the
groups built by `porFonte` are never empty). -/
def groupHeads (gs : List (String × List DBNoticia)) : List DBNoticia :=
  gs.map (fun p => p.2.headD ⟨none, none, none, none⟩)

/-- All records of all groups, in group order. -/
def joinGroups (gs : List (String × List DBNoticia)) : List DBNoticia :=
  (gs.map Prod.snd).flatten

/-- A diversified pool used as a concrete instance: four rows, three
sources, pairwise distinct URLs. -/
def c8pool : List DBNoticia :=
  [⟨some "https://a.com/1", some "Fonte A", none, some 90⟩,
   ⟨some "https://b.com/1", some "Fonte B", none, some 80⟩,
   ⟨some "https://a.com/2", some "Fonte A", none, some 70⟩,
   ⟨some "https://c.com/1", some "Fonte C", none, some 60⟩]

end Database

namespace NewsAggregator

/-- The one-per-portal relation: two selected records never share a
non-empty host. -/
def DistinctPortals (x y : NoticiaRec) : Prop :=
  recDomain x = "" ∨ recDomain y = "" ∨ recDomain x ≠ recDomain y

end NewsAggregator

/-! ## Helper theorems -/

theorem roundHalfEven_sub_le (q : ℚ) : |(roundHalfEven q : ℚ) - q| ≤ 1/2 := by
  unfold roundHalfEven
  have h0 : (0:ℚ) ≤ q - (⌊q⌋ : ℚ) := by
    have := Int.floor_le q; linarith
  have h1 : q - (⌊q⌋ : ℚ) < 1 := by
    have := Int.lt_floor_add_one q; linarith
  by_cases hlt : q - (⌊q⌋ : ℚ) < 1/2
  · simp only [hlt, if_true]
    rw [abs_le]; constructor <;> linarith
  · by_cases hgt : (1:ℚ)/2 < q - (⌊q⌋ : ℚ)
    · simp only [hlt, if_false, hgt, if_true]
      rw [abs_le]; push_cast; constructor <;> linarith
    · have heq : q - (⌊q⌋ : ℚ) = 1/2 := le_antisymm (not_lt.mp hgt) (not_lt.mp hlt)
      by_cases hev : ⌊q⌋ % 2 = 0
      · simp only [hlt, if_false, hgt, hev, if_true]
        rw [abs_le]; constructor <;> linarith
      · simp only [hlt, if_false, hgt, hev, if_true]
        rw [abs_le]; push_cast; constructor <;> linarith

theorem pyRound2_sub_le (q : ℚ) : |pyRound2 q - q| ≤ 1/200 := by
  unfold pyRound2
  have h := roundHalfEven_sub_le (q * 100)
  rw [abs_le] at h ⊢
  constructor <;> [linarith [h.1]; linarith [h.2]]

theorem roundHalfEven_nonneg (q : ℚ) (hq : 0 ≤ q) : 0 ≤ roundHalfEven q := by
  unfold roundHalfEven
  have hf : (0:ℤ) ≤ ⌊q⌋ := Int.floor_nonneg.mpr hq
  split_ifs <;> omega

theorem roundHalfEven_le_of_le (q : ℚ) (c : ℤ) (hq : q ≤ c) : roundHalfEven q ≤ c := by
  unfold roundHalfEven
  have hf : ⌊q⌋ ≤ c := by
    have h1 : ⌊q⌋ ≤ ⌊(c:ℚ)⌋ := Int.floor_le_floor hq
    simpa using h1
  by_cases hlt : q - (⌊q⌋ : ℚ) < 1/2
  · rw [if_pos hlt]; exact hf
  · rw [if_neg hlt]
    have hne : ⌊q⌋ ≠ c := by
      intro h
      have h1 : (c : ℚ) ≤ q := by
        rw [← h]; exact Int.floor_le q
      have h2 : q = (⌊q⌋ : ℚ) := by rw [h]; exact le_antisymm hq h1
      rw [← h2] at hlt
      simp at hlt
    have hcc : ⌊q⌋ + 1 ≤ c := by omega
    split_ifs <;> omega


theorem pyRound2_nonneg (q : ℚ) (hq : 0 ≤ q) : 0 ≤ pyRound2 q := by
  unfold pyRound2
  have := roundHalfEven_nonneg (q * 100) (by linarith)
  positivity

theorem pyRound2_le_100 (q : ℚ) (hq : q ≤ 100) : pyRound2 q ≤ 100 := by
  unfold pyRound2
  have h := roundHalfEven_le_of_le (q * 100) 10000 (by push_cast; linarith)
  have h2 : ((roundHalfEven (q * 100) : ℚ)) ≤ 10000 := by exact_mod_cast h
  linarith


namespace RelevanceEngine

theorem mention_step_snd_empty (pr : String → String → ℕ) (thr : ℕ)
    (tn : String) (st : Bool × ℕ × ℕ) (v : String) :
    (mention_step pr thr tn "" st v).2.1 = st.2.1 := by
  unfold mention_step
  simp

theorem foldl_mention_step_snd_empty (pr : String → String → ℕ) (thr : ℕ)
    (tn : String) (l : List String) (st : Bool × ℕ × ℕ) :
    (l.foldl (mention_step pr thr tn "") st).2.1 = st.2.1 := by
  induction l generalizing st with
  | nil => rfl
  | cons v vs ih => rw [List.foldl_cons, ih, mention_step_snd_empty]

theorem mention_step_exact_empty (pr : String → String → ℕ) (thr : ℕ)
    (tn : String) (st : Bool × ℕ × ℕ) (v : String)
    (h : containsSub tn.toList v.toList = true) :
    mention_step pr thr tn "" st v = (true, st.2.1, 100) := by
  unfold mention_step
  simp only [String.toList] at h
  simp [h]

/-- The mention analysis of scenario S1: the exact variant "joao" hits the
title, the body is empty, so the result is a title hit with zero body
mentions, for every fuzzy-ratio oracle. -/
theorem analyze_mentions_S1 (pr : String → String → ℕ) :
    analyze_mentions pr 85 "João Silva visita obra" "" "João da Silva Neto" =
      (true, 0, 100) := by
  have hv : ContentAnalyzer.extract_name_variations "João da Silva Neto" =
      ["joao da silva neto", "joao neto", "neto", "joao"] := by decide
  have ht : ContentAnalyzer.normalize_text "João Silva visita obra" =
      "joao silva visita obra" := by decide
  have hc : ContentAnalyzer.normalize_text "" = "" := by decide
  unfold analyze_mentions
  rw [hv, ht, hc]
  rw [show (["joao da silva neto", "joao neto", "neto", "joao"] : List String) =
    ["joao da silva neto", "joao neto", "neto"] ++ ["joao"] from rfl]
  rw [List.foldl_append, List.foldl_cons, List.foldl_nil]
  rw [mention_step_exact_empty _ _ _ _ _ (by decide)]
  rw [foldl_mention_step_snd_empty]

end RelevanceEngine

/-! ## Claim C6 -/

/-- C6, as stated, is false: the claim says the variant set contains "the
first token alone" and the pair of first and last *significant* tokens
where significant means only "not a connector".  For "Jo Silva Costa" the
first token "jo" is not a connector, so the claim requires "jo" and the
pair "jo costa" in the output; the source additionally discards tokens of
length ≤ 2, so neither is produced. -/
theorem claim_C6_counterexample :
    ("Jo Silva Costa" : String) ≠ "" ∧
    "jo" ∉ ContentAnalyzer.extract_name_variations "Jo Silva Costa" ∧
    "jo costa" ∉ ContentAnalyzer.extract_name_variations "Jo Silva Costa" := by
  decide

/-- C6 amended: for every non-empty full name, the variant set contains
the full normalized name; writing "significant" for tokens that are not
connectors (da, de, do, dos, das, e) *and are longer than 2 characters*:
whenever there are at least 2 significant tokens it also contains the
"first-significant last-significant" pair and the last significant token
alone, and whenever there is at least one significant token it contains
the first significant token alone. -/
theorem claim_C6_amended (full_name : String) (h : full_name ≠ "") :
    ContentAnalyzer.normalize_text full_name ∈
      ContentAnalyzer.extract_name_variations full_name ∧
    (2 ≤ (ContentAnalyzer.significantParts full_name).length →
      ((ContentAnalyzer.significantParts full_name).headD "" ++ " " ++
        (ContentAnalyzer.significantParts full_name).getLastD "") ∈
        ContentAnalyzer.extract_name_variations full_name ∧
      (ContentAnalyzer.significantParts full_name).getLastD "" ∈
        ContentAnalyzer.extract_name_variations full_name) ∧
    (ContentAnalyzer.significantParts full_name ≠ [] →
      (ContentAnalyzer.significantParts full_name).headD "" ∈
        ContentAnalyzer.extract_name_variations full_name) := by
  simp only [ContentAnalyzer.extract_name_variations,
    ContentAnalyzer.significantParts, h, if_false, List.mem_dedup]
  refine ⟨List.mem_cons_self _ _, fun h2 => ?_, fun h3 => ?_⟩
  · rw [if_pos h2]
    constructor <;> simp [List.mem_cons, List.mem_append]
  · have h4 : ((ContentAnalyzer.pySplit
        (ContentAnalyzer.normalize_text full_name)).filter
        (fun p => !(ContentAnalyzer.conectivos.contains p) &&
          decide (2 < p.length))).isEmpty = false :=
      List.isEmpty_eq_false.mpr h3
    rw [h4]
    simp [List.mem_cons, List.mem_append]

/-- Witness for C6 amended at the name "João da Silva Neto". -/
theorem claim_C6_witness :
    ContentAnalyzer.normalize_text "João da Silva Neto" ∈
      ContentAnalyzer.extract_name_variations "João da Silva Neto" ∧
    (2 ≤ (ContentAnalyzer.significantParts "João da Silva Neto").length →
      ((ContentAnalyzer.significantParts "João da Silva Neto").headD "" ++ " " ++
        (ContentAnalyzer.significantParts "João da Silva Neto").getLastD "") ∈
        ContentAnalyzer.extract_name_variations "João da Silva Neto" ∧
      (ContentAnalyzer.significantParts "João da Silva Neto").getLastD "" ∈
        ContentAnalyzer.extract_name_variations "João da Silva Neto") ∧
    (ContentAnalyzer.significantParts "João da Silva Neto" ≠ [] →
      (ContentAnalyzer.significantParts "João da Silva Neto").headD "" ∈
        ContentAnalyzer.extract_name_variations "João da Silva Neto") :=
  claim_C6_amended "João da Silva Neto" (by decide)

namespace RelevanceEngine

theorem get_fonte_peso_bounds (cache : FontesCache) (url : String)
    (hcache : ∀ e ∈ cache, 0 ≤ e.2 ∧ e.2 ≤ 2) :
    0 ≤ get_fonte_peso cache url ∧ get_fonte_peso cache url ≤ 2 := by
  unfold get_fonte_peso
  cases hf : List.find? (fun e => e.1 = extract_domain url) cache with
  | some e =>
    simp only [hf]
    exact hcache e (List.mem_of_find?_eq_some hf)
  | none =>
    simp only [hf]
    cases hg : List.find?
        (fun e => endsWithStr (extract_domain url) e.1 ||
          endsWithStr e.1 (extract_domain url)) cache with
    | some e =>
      simp only [hg]
      exact hcache e (List.mem_of_find?_eq_some hg)
    | none =>
      simp only [hg]
      norm_num

theorem calcular_score_mencao_bounds (pr : String → String → ℕ)
    (t c : String) (nome : Option String) :
    0 ≤ (calcular_score_mencao pr t c nome).1 ∧
      (calcular_score_mencao pr t c nome).1 ≤ 100 := by
  unfold calcular_score_mencao
  by_cases hb : pyFalsyStr nome
  · simp [hb]
  · simp only [hb, if_false, Bool.false_eq_true]
    set r := analyze_mentions pr 85 t c (nome.getD "") with hr
    have h1 : (0:ℚ) ≤ (if r.1 then (50:ℚ) else 0) := by split <;> norm_num
    have h2 : (if r.1 then (50:ℚ) else 0) ≤ 50 := by split <;> norm_num
    have h3 : (0:ℚ) ≤ ((min 50 (r.2.1 * 10) : ℕ) : ℚ) := Nat.cast_nonneg _
    have h4 : ((min 50 (r.2.1 * 10) : ℕ) : ℚ) ≤ 50 := by
      have := Nat.min_le_left 50 (r.2.1 * 10)
      exact_mod_cast this
    constructor
    · exact pyRound2_nonneg _ (by linarith)
    · exact pyRound2_le_100 _ (by linarith)

theorem calcular_score_fonte_bounds (cache : FontesCache) (url : String)
    (hcache : ∀ e ∈ cache, 0 ≤ e.2 ∧ e.2 ≤ 2) :
    0 ≤ calcular_score_fonte cache url ∧ calcular_score_fonte cache url ≤ 100 := by
  unfold calcular_score_fonte
  have hp := get_fonte_peso_bounds cache url hcache
  have h1 : (0:ℚ) ≤ min 100 (get_fonte_peso cache url * 50) :=
    le_min (by norm_num) (mul_nonneg hp.1 (by norm_num))
  have h2 : min 100 (get_fonte_peso cache url * 50) ≤ 100 := min_le_left _ _
  exact ⟨pyRound2_nonneg _ h1, pyRound2_le_100 _ h2⟩

theorem calcular_score_engajamento_bounds (a b c : ℕ) :
    0 ≤ calcular_score_engajamento a b c ∧
      calcular_score_engajamento a b c ≤ 100 := by
  unfold calcular_score_engajamento
  have h1 : (0:ℚ) ≤ min 100 (((a * 3 + b * 2 + c : ℕ) : ℚ) / 10) :=
    le_min (by norm_num) (by positivity)
  have h2 : min 100 (((a * 3 + b * 2 + c : ℕ) : ℚ) / 10) ≤ 100 := min_le_left _ _
  exact ⟨pyRound2_nonneg _ h1, pyRound2_le_100 _ h2⟩

theorem calcular_score_recencia_bounds (pub agora : ℚ) (hle : pub ≤ agora) :
    0 ≤ calcular_score_recencia (some pub) agora ∧
      calcular_score_recencia (some pub) agora ≤ 100 := by
  unfold calcular_score_recencia
  have h1 : (0:ℚ) ≤ max 0 (100 - (agora - pub) * 2) := le_max_left _ _
  have h2 : max (0:ℚ) (100 - (agora - pub) * 2) ≤ 100 :=
    max_le (by norm_num) (by linarith)
  exact ⟨pyRound2_nonneg _ h1, pyRound2_le_100 _ h2⟩

end RelevanceEngine

/-! ## Claim C1 -/

/-- C1, as stated, is false: the recency formula is applied unchanged to a
timestamp later than the evaluation instant, and the source never caps
the result at 100, so a news item published 1 hour in the future scores
recency 102, outside [0,100]. -/
theorem claim_C1_counterexample :
    (RelevanceEngine.calcular_relevancia RelevanceEngine.DEFAULT_WEIGHTS []
      (fun _ _ => 0) ⟨"t", "", "u", some 1⟩ none ⟨0, 0, 0⟩ 0).score_recencia
      = 102 ∧
    ¬((RelevanceEngine.calcular_relevancia RelevanceEngine.DEFAULT_WEIGHTS []
      (fun _ _ => 0) ⟨"t", "", "u", some 1⟩ none ⟨0, 0, 0⟩ 0).score_recencia
      ≤ 100) := by
  have h : (RelevanceEngine.calcular_relevancia RelevanceEngine.DEFAULT_WEIGHTS []
      (fun _ _ => 0) ⟨"t", "", "u", some 1⟩ none ⟨0, 0, 0⟩ 0).score_recencia =
      pyRound2 (max 0 (100 - ((0:ℚ) - 1) * 2)) := rfl
  have hmax : max (0:ℚ) (100 - ((0:ℚ) - 1) * 2) = 102 := by
    rw [max_eq_right] <;> norm_num
  rw [h, hmax]
  have hv : pyRound2 102 = 102 := by
    norm_num [pyRound2, roundHalfEven]
  rw [hv]
  norm_num

/-- C1 amended: for every scored news item, the mention, source and
engagement subscores lie in [0,100] (source under the spec's trust-weight
range [0,2]); the recency subscore is 50 when the timestamp is missing
and otherwise equals `round2(max(0, 100 − 2·hours_since_published))`,
*which exceeds 100 when the timestamp is in the future*; when the
timestamp is not later than the evaluation instant the recency subscore
and the composite also lie in [0,100]; and the composite always equals
the weighted sum of the four stored subscores with the default weights
0.25/0.35/0.25/0.15, within 0.01. -/
theorem claim_C1_amended (cache : RelevanceEngine.FontesCache)
    (pr : String → String → ℕ) (n : RelevanceEngine.Noticia)
    (nome : Option String) (eng : RelevanceEngine.Engajamento) (agora : ℚ)
    (s : RelevanceEngine.Scores)
    (hcache : ∀ e ∈ cache, 0 ≤ e.2 ∧ e.2 ≤ 2)
    (hs : s = RelevanceEngine.calcular_relevancia
      RelevanceEngine.DEFAULT_WEIGHTS cache pr n nome eng agora) :
    (0 ≤ s.score_mencao ∧ s.score_mencao ≤ 100) ∧
    (0 ≤ s.score_fonte ∧ s.score_fonte ≤ 100) ∧
    (0 ≤ s.score_engajamento ∧ s.score_engajamento ≤ 100) ∧
    (n.publicado_em = none → s.score_recencia = 50) ∧
    (∀ pub, n.publicado_em = some pub →
      s.score_recencia = pyRound2 (max 0 (100 - (agora - pub) * 2))) ∧
    ((∀ pub ∈ n.publicado_em, pub ≤ agora) →
      (0 ≤ s.score_recencia ∧ s.score_recencia ≤ 100) ∧
      (0 ≤ s.relevancia_total ∧ s.relevancia_total ≤ 100)) ∧
    |s.relevancia_total -
      (s.score_recencia * (1/4) + s.score_mencao * (7/20) +
        s.score_fonte * (1/4) + s.score_engajamento * (3/20))| ≤ 1/100 := by
  subst hs
  have hm := RelevanceEngine.calcular_score_mencao_bounds pr n.titulo n.conteudo nome
  have hf := RelevanceEngine.calcular_score_fonte_bounds cache n.url hcache
  have he := RelevanceEngine.calcular_score_engajamento_bounds
    eng.compartilhamentos eng.comentarios eng.likes
  refine ⟨hm, hf, he, ?_, ?_, ?_, ?_⟩
  · intro hnone
    show RelevanceEngine.calcular_score_recencia n.publicado_em agora = 50
    rw [hnone]
    rfl
  · intro pub hpub
    show RelevanceEngine.calcular_score_recencia n.publicado_em agora =
      pyRound2 (max 0 (100 - (agora - pub) * 2))
    rw [hpub]
    rfl
  · intro hpast
    have hr : 0 ≤ RelevanceEngine.calcular_score_recencia n.publicado_em agora ∧
        RelevanceEngine.calcular_score_recencia n.publicado_em agora ≤ 100 := by
      cases hp : n.publicado_em with
      | none =>
        unfold RelevanceEngine.calcular_score_recencia
        norm_num
      | some pub =>
        exact RelevanceEngine.calcular_score_recencia_bounds pub agora
          (hpast pub (by rw [hp]; rfl))
    refine ⟨hr, ?_⟩
    have hrel : (RelevanceEngine.calcular_relevancia
        RelevanceEngine.DEFAULT_WEIGHTS cache pr n nome eng agora).relevancia_total =
        pyRound2 (RelevanceEngine.calcular_score_recencia n.publicado_em agora * (1/4) +
          (RelevanceEngine.calcular_score_mencao pr n.titulo n.conteudo nome).1 * (7/20) +
          RelevanceEngine.calcular_score_fonte cache n.url * (1/4) +
          RelevanceEngine.calcular_score_engajamento eng.compartilhamentos
            eng.comentarios eng.likes * (3/20)) := rfl
    rw [hrel]
    constructor
    · exact pyRound2_nonneg _ (by
        have := hm.1; have := hf.1; have := he.1; have := hr.1
        nlinarith [hm.1, hf.1, he.1, hr.1])
    · exact pyRound2_le_100 _ (by nlinarith [hm.2, hf.2, he.2, hr.2])
  · have hrel : (RelevanceEngine.calcular_relevancia
        RelevanceEngine.DEFAULT_WEIGHTS cache pr n nome eng agora).relevancia_total =
        pyRound2 ((RelevanceEngine.calcular_relevancia
            RelevanceEngine.DEFAULT_WEIGHTS cache pr n nome eng agora).score_recencia * (1/4) +
          (RelevanceEngine.calcular_relevancia
            RelevanceEngine.DEFAULT_WEIGHTS cache pr n nome eng agora).score_mencao * (7/20) +
          (RelevanceEngine.calcular_relevancia
            RelevanceEngine.DEFAULT_WEIGHTS cache pr n nome eng agora).score_fonte * (1/4) +
          (RelevanceEngine.calcular_relevancia
            RelevanceEngine.DEFAULT_WEIGHTS cache pr n nome eng agora).score_engajamento * (3/20)) := rfl
    rw [hrel]
    calc |pyRound2 _ - _| ≤ 1/200 := pyRound2_sub_le _
    _ ≤ 1/100 := by norm_num

/-- Witness for C1 amended: a concrete item published 1 hour before an
evaluation at hour 2, empty cache, zero engagement. -/
theorem claim_C1_witness :
    (RelevanceEngine.calcular_relevancia RelevanceEngine.DEFAULT_WEIGHTS []
      (fun _ _ => 0) ⟨"t", "", "u", some 1⟩ none ⟨0, 0, 0⟩ 2).score_recencia =
      pyRound2 (max 0 (100 - ((2:ℚ) - 1) * 2)) ∧
    (0 ≤ (RelevanceEngine.calcular_relevancia RelevanceEngine.DEFAULT_WEIGHTS []
      (fun _ _ => 0) ⟨"t", "", "u", some 1⟩ none ⟨0, 0, 0⟩ 2).score_mencao ∧
      (RelevanceEngine.calcular_relevancia RelevanceEngine.DEFAULT_WEIGHTS []
      (fun _ _ => 0) ⟨"t", "", "u", some 1⟩ none ⟨0, 0, 0⟩ 2).score_mencao ≤ 100) ∧
    (0 ≤ (RelevanceEngine.calcular_relevancia RelevanceEngine.DEFAULT_WEIGHTS []
      (fun _ _ => 0) ⟨"t", "", "u", some 1⟩ none ⟨0, 0, 0⟩ 2).relevancia_total ∧
      (RelevanceEngine.calcular_relevancia RelevanceEngine.DEFAULT_WEIGHTS []
      (fun _ _ => 0) ⟨"t", "", "u", some 1⟩ none ⟨0, 0, 0⟩ 2).relevancia_total ≤ 100) := by
  have h := claim_C1_amended [] (fun _ _ => 0) ⟨"t", "", "u", some 1⟩ none
    ⟨0, 0, 0⟩ 2 (RelevanceEngine.calcular_relevancia
      RelevanceEngine.DEFAULT_WEIGHTS [] (fun _ _ => 0) ⟨"t", "", "u", some 1⟩
      none ⟨0, 0, 0⟩ 2) (by simp) rfl
  refine ⟨h.2.2.2.2.1 1 rfl, h.1, ?_⟩
  have hp : ∀ pub ∈ (some (1:ℚ) : Option ℚ), pub ≤ 2 := by
    intro pub hpub
    have : pub = 1 := by
      have h1 : (1:ℚ) = pub := by simpa using hpub
      exact h1.symm
    rw [this]
    norm_num
  exact (h.2.2.2.2.2.1 hp).2

namespace RelevanceEngine

/-- Full evaluation of scenario S1: title "João Silva visita obra", empty
body, source `g1.globo.com` with trust weight 1.5, published 2 hours
before evaluation, zero engagement, default weights. -/
theorem S1_scores (pr : String → String → ℕ) :
    calcular_relevancia DEFAULT_WEIGHTS [("g1.globo.com", 3/2)] pr
      ⟨"João Silva visita obra", "", "https://g1.globo.com/noticia", some 0⟩
      (some "João da Silva Neto") ⟨0, 0, 0⟩ 2 =
      ⟨96, 50, 75, 0, 241/4, true, 0⟩ := by
  have hm : calcular_score_mencao pr "João Silva visita obra" ""
      (some "João da Silva Neto") = (50, true, 0) := by
    unfold calcular_score_mencao
    have hb : pyFalsyStr (some "João da Silva Neto") = false := by decide
    rw [hb]
    simp only [Bool.false_eq_true, if_false, Option.getD_some]
    simp only [analyze_mentions_S1 pr]
    norm_num [pyRound2, roundHalfEven]
  have hr : calcular_score_recencia (some 0) 2 = 96 := by
    show pyRound2 (max 0 (100 - ((2:ℚ) - 0) * 2)) = 96
    rw [show max (0:ℚ) (100 - ((2:ℚ) - 0) * 2) = 96 by
      rw [max_eq_right] <;> norm_num]
    norm_num [pyRound2, roundHalfEven]
  have hd : extract_domain "https://g1.globo.com/noticia" = "g1.globo.com" := by
    decide
  have hp : get_fonte_peso [("g1.globo.com", 3/2)]
      "https://g1.globo.com/noticia" = 3/2 := by
    unfold get_fonte_peso
    rw [hd]
    simp [List.find?]
  have hf : calcular_score_fonte [("g1.globo.com", 3/2)]
      "https://g1.globo.com/noticia" = 75 := by
    unfold calcular_score_fonte
    rw [hp]
    rw [show min (100:ℚ) (3/2 * 50) = 75 by rw [min_eq_right] <;> norm_num]
    norm_num [pyRound2, roundHalfEven]
  have he : calcular_score_engajamento 0 0 0 = 0 := by
    unfold calcular_score_engajamento
    rw [show min (100:ℚ) (((0 * 3 + 0 * 2 + 0 : ℕ) : ℚ) / 10) = 0 by
      rw [min_eq_right] <;> norm_num]
    norm_num [pyRound2, roundHalfEven]
  show (⟨calcular_score_recencia (some 0) 2,
      (calcular_score_mencao pr "João Silva visita obra" ""
        (some "João da Silva Neto")).1,
      calcular_score_fonte [("g1.globo.com", 3/2)] "https://g1.globo.com/noticia",
      calcular_score_engajamento 0 0 0,
      pyRound2 (calcular_score_recencia (some 0) 2 * DEFAULT_WEIGHTS.recencia +
        (calcular_score_mencao pr "João Silva visita obra" ""
          (some "João da Silva Neto")).1 * DEFAULT_WEIGHTS.mencao +
        calcular_score_fonte [("g1.globo.com", 3/2)]
          "https://g1.globo.com/noticia" * DEFAULT_WEIGHTS.fonte +
        calcular_score_engajamento 0 0 0 * DEFAULT_WEIGHTS.engajamento),
      (calcular_score_mencao pr "João Silva visita obra" ""
        (some "João da Silva Neto")).2.1,
      (calcular_score_mencao pr "João Silva visita obra" ""
        (some "João da Silva Neto")).2.2⟩ : Scores) =
    ⟨96, 50, 75, 0, 241/4, true, 0⟩
  rw [hm, hr, hf, he]
  show (⟨96, 50, 75, 0, pyRound2 (96 * DEFAULT_WEIGHTS.recencia +
      50 * DEFAULT_WEIGHTS.mencao + 75 * DEFAULT_WEIGHTS.fonte +
      0 * DEFAULT_WEIGHTS.engajamento), true, 0⟩ : Scores) = _
  have hc : (96 : ℚ) * DEFAULT_WEIGHTS.recencia + 50 * DEFAULT_WEIGHTS.mencao +
      75 * DEFAULT_WEIGHTS.fonte + 0 * DEFAULT_WEIGHTS.engajamento = 241/4 := by
    norm_num [DEFAULT_WEIGHTS]
  rw [hc]
  have h2 : pyRound2 (241/4) = 241/4 := by norm_num [pyRound2, roundHalfEven]
  rw [h2]

end RelevanceEngine

/-! ## Claim C5 -/

/-- C5, as stated, is false in its composite value: the subscores of S1
are recency 96, mention 50, source 75, engagement 0, but their weighted
sum is 0.25·96 + 0.35·50 + 0.25·75 + 0.15·0 = 60.25, not the 60.5 the
claim asserts. -/
theorem claim_C5_counterexample :
    (RelevanceEngine.calcular_relevancia RelevanceEngine.DEFAULT_WEIGHTS
      [("g1.globo.com", 3/2)] (fun _ _ => 0)
      ⟨"João Silva visita obra", "", "https://g1.globo.com/noticia", some 0⟩
      (some "João da Silva Neto") ⟨0, 0, 0⟩ 2).relevancia_total = 241/4 ∧
    (RelevanceEngine.calcular_relevancia RelevanceEngine.DEFAULT_WEIGHTS
      [("g1.globo.com", 3/2)] (fun _ _ => 0)
      ⟨"João Silva visita obra", "", "https://g1.globo.com/noticia", some 0⟩
      (some "João da Silva Neto") ⟨0, 0, 0⟩ 2).relevancia_total ≠ 121/2 := by
  rw [RelevanceEngine.S1_scores]
  norm_num

/-- C5 amended: the S1 computation yields recency 96, mention 50 with a
title hit, source 75, engagement 0, composite 60.25, and the item passes
the politician-scope quality filter — for every fuzzy-ratio oracle. -/
theorem claim_C5_amended (pr : String → String → ℕ) :
    RelevanceEngine.calcular_relevancia RelevanceEngine.DEFAULT_WEIGHTS
      [("g1.globo.com", 3/2)] pr
      ⟨"João Silva visita obra", "", "https://g1.globo.com/noticia", some 0⟩
      (some "João da Silva Neto") ⟨0, 0, 0⟩ 2 =
      ⟨96, 50, 75, 0, 241/4, true, 0⟩ ∧
    NewsAggregator.passes_quality_filter
      (RelevanceEngine.calcular_relevancia RelevanceEngine.DEFAULT_WEIGHTS
        [("g1.globo.com", 3/2)] pr
        ⟨"João Silva visita obra", "", "https://g1.globo.com/noticia", some 0⟩
        (some "João da Silva Neto") ⟨0, 0, 0⟩ 2) = true := by
  refine ⟨RelevanceEngine.S1_scores pr, ?_⟩
  rw [RelevanceEngine.S1_scores]
  rfl

namespace NewsAggregator

theorem pickBest_append (a : NoticiaRec) (as : List NoticiaRec) (n : NoticiaRec) :
    pickBest a (as ++ [n]) =
      (if conteudoLen (pickBest a as) < conteudoLen n then n
       else pickBest a as) := by
  induction as generalizing a with
  | nil => rfl
  | cons x xs ih =>
    simp only [List.cons_append, pickBest]
    exact ih _

theorem pickBest_mem (a : NoticiaRec) (as : List NoticiaRec) :
    pickBest a as ∈ a :: as := by
  induction as generalizing a with
  | nil => simp [pickBest]
  | cons n ns ih =>
    simp only [pickBest]
    by_cases hc : conteudoLen a < conteudoLen n
    · simp only [if_pos hc]
      have h := ih n
      simp only [List.mem_cons] at h ⊢
      tauto
    · simp only [if_neg hc]
      have h := ih a
      simp only [List.mem_cons] at h ⊢
      tauto

theorem pickBest_le (a : NoticiaRec) (as : List NoticiaRec) :
    ∀ x ∈ a :: as, conteudoLen x ≤ conteudoLen (pickBest a as) := by
  induction as generalizing a with
  | nil =>
    intro x hx
    simp at hx
    subst hx
    exact le_refl _
  | cons n ns ih =>
    intro x hx
    simp only [pickBest]
    have ha : conteudoLen a ≤
        conteudoLen (if conteudoLen a < conteudoLen n then n else a) := by
      split_ifs with hc <;> omega
    have hn : conteudoLen n ≤
        conteudoLen (if conteudoLen a < conteudoLen n then n else a) := by
      split_ifs with hc <;> omega
    have hrec := ih (if conteudoLen a < conteudoLen n then n else a)
    have htop : conteudoLen (if conteudoLen a < conteudoLen n then n else a) ≤
        conteudoLen (pickBest (if conteudoLen a < conteudoLen n then n else a) ns) :=
      hrec _ (List.mem_cons_self _ _)
    rcases List.mem_cons.mp hx with h1 | h1
    · subst h1
      omega
    · rcases List.mem_cons.mp h1 with h2 | h2
      · subst h2
        omega
      · exact hrec x (List.mem_cons_of_mem _ h2)

theorem pickBest_first (a : NoticiaRec) (as : List NoticiaRec) :
    (a :: as).find?
      (fun x => decide (conteudoLen (pickBest a as) ≤ conteudoLen x)) =
      some (pickBest a as) := by
  induction as generalizing a with
  | nil =>
    simp [pickBest, List.find?]
  | cons n ns ih =>
    simp only [pickBest]
    by_cases hc : conteudoLen a < conteudoLen n
    · simp only [if_pos hc]
      have hb : conteudoLen a < conteudoLen (pickBest n ns) := by
        have := pickBest_le n ns n (List.mem_cons_self _ _)
        omega
      rw [List.find?_cons_of_neg _ (by simp; omega)]
      exact ih n
    · simp only [if_neg hc]
      have hle : conteudoLen n ≤ conteudoLen a := by omega
      have ihn := ih a
      by_cases hpa : conteudoLen (pickBest a ns) ≤ conteudoLen a
      · have hba : pickBest a ns = a := by
          have h1 : List.find? (fun x =>
              decide (conteudoLen (pickBest a ns) ≤ conteudoLen x)) (a :: ns) =
              some a := List.find?_cons_of_pos _ (by simpa using hpa)
          have h2 := h1.symm.trans ihn
          exact (Option.some_injective _ h2).symm
        rw [List.find?_cons_of_pos _ (by simp; omega)]
        rw [hba]
      · have hlt : conteudoLen a < conteudoLen (pickBest a ns) := by omega
        rw [List.find?_cons_of_neg _ (by simp; omega)]
        rw [List.find?_cons_of_neg _ (by simp; omega)]
        have h3 := ihn
        rw [List.find?_cons_of_neg _ (by simp; omega)] at h3
        exact h3

theorem dedupUpd_of_not_mem (m : List (String × NoticiaRec)) (k : String)
    (n : NoticiaRec) (h : k ∉ m.map Prod.fst) :
    dedupUpd m k n = m ++ [(k, n)] := by
  induction m with
  | nil => rfl
  | cons e es ih =>
    simp only [List.map_cons, List.mem_cons] at h
    push_neg at h
    simp only [dedupUpd, if_neg (show ¬ e.1 = k from fun hq => h.1 hq.symm)]
    rw [ih h.2]
    rfl

theorem dedupUpd_fst_of_mem (m : List (String × NoticiaRec)) (k : String)
    (n : NoticiaRec) (h : k ∈ m.map Prod.fst) :
    (dedupUpd m k n).map Prod.fst = m.map Prod.fst := by
  induction m with
  | nil => simp at h
  | cons e es ih =>
    by_cases he : e.1 = k
    · simp only [dedupUpd, if_pos he]
      split <;> simp [he]
    · simp only [List.map_cons, List.mem_cons] at h
      rcases h with h | h
      · exact absurd h.symm he
      · simp only [dedupUpd, if_neg he, List.map_cons]
        rw [ih h]

theorem dedupUpd_find?_eq (m : List (String × NoticiaRec)) (k : String)
    (n : NoticiaRec) :
    List.find? (fun e => e.1 = k) (dedupUpd m k n) =
      some (k, match List.find? (fun e => e.1 = k) m with
        | none => n
        | some e => if conteudoLen e.2 < conteudoLen n then n else e.2) := by
  induction m with
  | nil => simp [dedupUpd, List.find?]
  | cons e es ih =>
    by_cases he : e.1 = k
    · rw [show dedupUpd (e :: es) k n =
        (if conteudoLen e.2 < conteudoLen n then (k, n) else e) :: es from by
          simp [dedupUpd, he]]
      by_cases hlen : conteudoLen e.2 < conteudoLen n
      · rw [if_pos hlen]
        rw [List.find?_cons_of_pos _ (by simp)]
        rw [List.find?_cons_of_pos _ (by simpa using he)]
        simp [hlen]
      · rw [if_neg hlen]
        rw [List.find?_cons_of_pos _ (by simpa using he)]
        simp only [if_neg hlen]
        congr 1
        rw [← he]
    · simp only [dedupUpd, if_neg he]
      rw [List.find?_cons_of_neg _ (by simpa using he)]
      rw [List.find?_cons_of_neg _ (by simpa using he)]
      exact ih

theorem dedupUpd_find?_ne (m : List (String × NoticiaRec)) (k : String)
    (n : NoticiaRec) (q : String) (h : q ≠ k) :
    List.find? (fun e => e.1 = q) (dedupUpd m k n) =
      List.find? (fun e => e.1 = q) m := by
  induction m with
  | nil =>
    rw [show dedupUpd [] k n = [(k, n)] from rfl]
    rw [List.find?_cons_of_neg _
      (by simpa using fun hq : k = q => h hq.symm)]
  | cons e es ih =>
    by_cases he : e.1 = k
    · rw [show dedupUpd (e :: es) k n =
        (if conteudoLen e.2 < conteudoLen n then (k, n) else e) :: es from by
          simp [dedupUpd, he]]
      have hq : ¬ (e.1 = q) := fun hc => h (hc ▸ he)
      have hhead : ¬ (((if conteudoLen e.2 < conteudoLen n then (k, n) else e) :
          String × NoticiaRec).1 = q) := by
        split
        · exact fun hc => h hc.symm
        · exact hq
      rw [List.find?_cons_of_neg _ (by simpa using hhead)]
      rw [List.find?_cons_of_neg _ (by simpa using hq)]
    · simp only [dedupUpd, if_neg he]
      by_cases hq : e.1 = q
      · rw [List.find?_cons_of_pos _ (by simpa using hq),
          List.find?_cons_of_pos _ (by simpa using hq)]
      · rw [List.find?_cons_of_neg _ (by simpa using hq),
          List.find?_cons_of_neg _ (by simpa using hq)]
        exact ih

theorem dedupMap_append (l : List NoticiaRec) (n : NoticiaRec) :
    dedupMap (l ++ [n]) = dedupUpd (dedupMap l) (canonKey n) n := by
  simp [dedupMap, canonKey, List.foldl_append]

theorem dedupMap_find? (l : List NoticiaRec) (k : String) :
    List.find? (fun e => e.1 = k) (dedupMap l) =
      match l.filter (fun n => canonKey n = k) with
      | [] => none
      | a :: as => some (k, pickBest a as) := by
  induction l using List.reverseRecOn with
  | nil => simp [dedupMap, List.find?]
  | append_singleton l n ih =>
    rw [dedupMap_append]
    by_cases hk : canonKey n = k
    · subst hk
      rw [dedupUpd_find?_eq, ih]
      have hfil : (l ++ [n]).filter (fun m => canonKey m = canonKey n) =
          l.filter (fun m => canonKey m = canonKey n) ++ [n] := by
        simp [List.filter_append]
      rw [hfil]
      cases hfl : l.filter (fun m => canonKey m = canonKey n) with
      | nil => simp [pickBest]
      | cons a as =>
        show _ = some (canonKey n, pickBest a (as ++ [n]))
        rw [pickBest_append]
    · rw [dedupUpd_find?_ne _ _ _ _ (fun h => hk h.symm), ih]
      have hfil : (l ++ [n]).filter (fun m => canonKey m = k) =
          l.filter (fun m => canonKey m = k) := by
        simp [List.filter_append, hk]
      rw [hfil]

theorem dedupMap_fst_nodup (l : List NoticiaRec) :
    ((dedupMap l).map Prod.fst).Nodup := by
  induction l using List.reverseRecOn with
  | nil => simp [dedupMap]
  | append_singleton l n ih =>
    rw [dedupMap_append]
    by_cases hm : canonKey n ∈ (dedupMap l).map Prod.fst
    · rw [dedupUpd_fst_of_mem _ _ _ hm]
      exact ih
    · rw [dedupUpd_of_not_mem _ _ _ hm, List.map_append]
      refine List.Nodup.append ih (by simp) ?_
      simp only [List.map_cons, List.map_nil]
      intro a ha hb
      simp at hb
      subst hb
      exact hm ha

theorem find?_eq_of_mem_of_nodup (m : List (String × NoticiaRec))
    (e : String × NoticiaRec) (hn : (m.map Prod.fst).Nodup) (he : e ∈ m) :
    List.find? (fun x => x.1 = e.1) m = some e := by
  induction m with
  | nil => simp at he
  | cons a as ih =>
    simp only [List.map_cons, List.nodup_cons] at hn
    rcases List.mem_cons.mp he with h | h
    · subst h
      exact List.find?_cons_of_pos _ (by simp)
    · have hne : ¬ (a.1 = e.1) := by
        intro hc
        exact hn.1 (hc ▸ List.mem_map_of_mem Prod.fst h)
      rw [List.find?_cons_of_neg _ (by simpa using hne)]
      exact ih hn.2 h

end NewsAggregator

namespace NewsAggregator

theorem dedupMap_entry_spec (l : List NoticiaRec) (e : String × NoticiaRec)
    (he : e ∈ dedupMap l) :
    canonKey e.2 = e.1 ∧ e.2 ∈ l ∧
    (∀ n ∈ l, canonKey n = canonKey e.2 → conteudoLen n ≤ conteudoLen e.2) ∧
    (l.filter (fun n => canonKey n = canonKey e.2)).find?
      (fun n => conteudoLen e.2 ≤ conteudoLen n) = some e.2 := by
  have hfind := find?_eq_of_mem_of_nodup _ e (dedupMap_fst_nodup l) he
  rw [dedupMap_find?] at hfind
  cases hfl : l.filter (fun n => canonKey n = e.1) with
  | nil =>
    rw [hfl] at hfind
    simp at hfind
  | cons a as =>
    rw [hfl] at hfind
    simp only [Option.some.injEq] at hfind
    have he2 : e.2 = pickBest a as := by rw [← hfind]
    have hmem : e.2 ∈ a :: as := he2 ▸ pickBest_mem a as
    have hmemf : e.2 ∈ l.filter (fun n => canonKey n = e.1) := hfl ▸ hmem
    have hkey : canonKey e.2 = e.1 := by
      have := List.of_mem_filter hmemf
      simpa using this
    refine ⟨hkey, List.mem_of_mem_filter hmemf, ?_, ?_⟩
    · intro n hn hkn
      have hnf : n ∈ a :: as := by
        rw [← hfl]
        exact List.mem_filter.mpr ⟨hn, by simp [hkn, hkey]⟩
      rw [he2]
      exact pickBest_le a as n hnf
    · rw [hkey, hfl, he2]
      exact pickBest_first a as

end NewsAggregator

/-! ## Claim C7 -/

/-- C7: deduplication folds candidate records by canonical URL key — host
plus path, lowercased, `www.` stripped, trailing `/` trimmed, Google News
wrappers unwrapped via the `url`/`q`/`u` query parameters — keeping per
key a record of maximal full-text length, the earliest-seen on ties; and
the S2 pair of URLs collides on `site.com/x` with the longer body
surviving. -/
theorem claim_C7 :
    (∀ l : List NewsAggregator.NoticiaRec,
      ((NewsAggregator.remove_duplicates l).map NewsAggregator.canonKey).Nodup ∧
      (∀ n ∈ l, ∃ r ∈ NewsAggregator.remove_duplicates l,
        NewsAggregator.canonKey r = NewsAggregator.canonKey n) ∧
      (∀ r ∈ NewsAggregator.remove_duplicates l,
        r ∈ l ∧
        (∀ n ∈ l, NewsAggregator.canonKey n = NewsAggregator.canonKey r →
          NewsAggregator.conteudoLen n ≤ NewsAggregator.conteudoLen r) ∧
        (l.filter (fun n =>
          NewsAggregator.canonKey n = NewsAggregator.canonKey r)).find?
          (fun n => NewsAggregator.conteudoLen r ≤ NewsAggregator.conteudoLen n) =
          some r)) ∧
    NewsAggregator.normalize_url
      "https://news.google.com/articles/abc?url=https://site.com/x/" =
      "site.com/x" ∧
    NewsAggregator.normalize_url "https://www.site.com/x" = "site.com/x" ∧
    NewsAggregator.remove_duplicates
      [⟨"n1", "https://news.google.com/articles/abc?url=https://site.com/x/",
        some "corpo", none⟩,
       ⟨"n2", "https://www.site.com/x", some "corpo mais longo", none⟩] =
      [⟨"n2", "https://www.site.com/x", some "corpo mais longo", none⟩] := by
  refine ⟨?_, by decide, by decide, by decide⟩
  intro l
  have hrd : NewsAggregator.remove_duplicates l =
      (NewsAggregator.dedupMap l).map (fun e => e.2) := rfl
  refine ⟨?_, ?_, ?_⟩
  · rw [hrd, List.map_map]
    have hcongr : (NewsAggregator.dedupMap l).map
        (NewsAggregator.canonKey ∘ fun e => e.2) =
        (NewsAggregator.dedupMap l).map Prod.fst := by
      apply List.map_congr_left
      intro e he
      exact (NewsAggregator.dedupMap_entry_spec l e he).1
    rw [hcongr]
    exact NewsAggregator.dedupMap_fst_nodup l
  · intro n hn
    have hnf : n ∈ l.filter (fun m =>
        NewsAggregator.canonKey m = NewsAggregator.canonKey n) :=
      List.mem_filter.mpr ⟨hn, by simp⟩
    have hfind := NewsAggregator.dedupMap_find? l (NewsAggregator.canonKey n)
    cases hfl : l.filter (fun m =>
        NewsAggregator.canonKey m = NewsAggregator.canonKey n) with
    | nil =>
      rw [hfl] at hnf
      simp at hnf
    | cons a as =>
      rw [hfl] at hfind
      have hment := List.mem_of_find?_eq_some hfind
      have hspec := NewsAggregator.dedupMap_entry_spec l _ hment
      refine ⟨NewsAggregator.pickBest a as, ?_, ?_⟩
      · rw [hrd]
        exact List.mem_map_of_mem (fun e => e.2) hment
      · exact hspec.1
  · intro r hr
    rw [hrd] at hr
    rcases List.mem_map.mp hr with ⟨e, he, hre⟩
    have hspec := NewsAggregator.dedupMap_entry_spec l e he
    rw [← hre]
    exact ⟨hspec.2.1, hspec.2.2.1, hspec.2.2.2⟩

/-- Witness for C7 at the S2 record pair. -/
theorem claim_C7_witness :
    NewsAggregator.conteudoLen
      ⟨"n1", "https://news.google.com/articles/abc?url=https://site.com/x/",
        some "corpo", none⟩ ≤
    NewsAggregator.conteudoLen
      ⟨"n2", "https://www.site.com/x", some "corpo mais longo", none⟩ ∧
    ([(⟨"n1", "https://news.google.com/articles/abc?url=https://site.com/x/",
        some "corpo", none⟩ : NewsAggregator.NoticiaRec),
      ⟨"n2", "https://www.site.com/x", some "corpo mais longo", none⟩].filter
      (fun n => NewsAggregator.canonKey n = NewsAggregator.canonKey
        ⟨"n2", "https://www.site.com/x", some "corpo mais longo", none⟩)).find?
      (fun n => NewsAggregator.conteudoLen
        ⟨"n2", "https://www.site.com/x", some "corpo mais longo", none⟩ ≤
        NewsAggregator.conteudoLen n) =
      some ⟨"n2", "https://www.site.com/x", some "corpo mais longo", none⟩ := by
  have h := (claim_C7.1
    [⟨"n1", "https://news.google.com/articles/abc?url=https://site.com/x/",
      some "corpo", none⟩,
     ⟨"n2", "https://www.site.com/x", some "corpo mais longo", none⟩]).2.2
    ⟨"n2", "https://www.site.com/x", some "corpo mais longo", none⟩ (by decide)
  exact ⟨h.2.1 ⟨"n1",
    "https://news.google.com/articles/abc?url=https://site.com/x/",
    some "corpo", none⟩ (by decide) (by decide), h.2.2⟩

namespace NewsAggregator

theorem selectLoop_length (limit : ℕ) (rem : List NoticiaRec)
    (out : List NoticiaRec) (sd su : List String)
    (hout : out.length < limit) :
    (selectLoop limit rem out sd su).length ≤ limit := by
  induction rem generalizing out sd su with
  | nil => simpa [selectLoop] using Nat.le_of_lt hout
  | cons n rest ih =>
    simp only [selectLoop]
    split_ifs <;>
    first
      | exact ih out sd su hout
      | (simp only [List.length_append, List.length_cons, List.length_nil]
         omega)
      | (refine ih (out ++ [n]) _ _ ?_
         simp only [List.length_append, List.length_cons, List.length_nil] at *
         omega)

theorem pairwise_append_one (out : List NoticiaRec) (n : NoticiaRec)
    (sd : List String)
    (hinv : ∀ x ∈ out, recDomain x ≠ "" → recDomain x ∈ sd)
    (hnd : recDomain n = "" ∨ recDomain n ∉ sd)
    (hpw : out.Pairwise DistinctPortals) :
    (out ++ [n]).Pairwise DistinctPortals := by
  rw [List.pairwise_append]
  refine ⟨hpw, by simp, ?_⟩
  intro x hx y hy
  simp only [List.mem_singleton] at hy
  subst hy
  by_cases hx0 : recDomain x = ""
  · exact Or.inl hx0
  · rcases hnd with hn0 | hns
    · exact Or.inr (Or.inl hn0)
    · refine Or.inr (Or.inr ?_)
      intro heq
      exact hns (heq ▸ hinv x hx hx0)

theorem selectLoop_pairwise (limit : ℕ) (rem : List NoticiaRec)
    (out : List NoticiaRec) (sd su : List String)
    (hinv : ∀ x ∈ out, recDomain x ≠ "" → recDomain x ∈ sd)
    (hpw : out.Pairwise DistinctPortals) :
    (selectLoop limit rem out sd su).Pairwise DistinctPortals := by
  induction rem generalizing out sd su with
  | nil => simpa [selectLoop] using hpw
  | cons n rest ih =>
    simp only [selectLoop]
    split_ifs with h1 h2 h3 h4 h5
    · exact ih out sd su hinv hpw
    · exact ih out sd su hinv hpw
    · exact ih out sd su hinv hpw
    · have h3' : ¬((decide (recDomain n ≠ "") && sd.contains (recDomain n)) = true) := h3
      have hnd : recDomain n = "" ∨ recDomain n ∉ sd := by
        by_cases hd : recDomain n = ""
        · exact Or.inl hd
        · refine Or.inr (fun hmem => h3' ?_)
          simp [hd, hmem]
      exact pairwise_append_one out n sd hinv hnd hpw
    · have h3' : ¬((decide (recDomain n ≠ "") && sd.contains (recDomain n)) = true) := h3
      have hnd : recDomain n = "" ∨ recDomain n ∉ sd := by
        by_cases hd : recDomain n = ""
        · exact Or.inl hd
        · refine Or.inr (fun hmem => h3' ?_)
          simp [hd, hmem]
      refine ih (out ++ [n]) (sd ++ [recDomain n]) _ ?_ ?_
      · intro x hx hxne
        rcases List.mem_append.mp hx with hxo | hxn
        · exact List.mem_append.mpr (Or.inl (hinv x hxo hxne))
        · simp only [List.mem_singleton] at hxn
          subst hxn
          exact List.mem_append.mpr (Or.inr (by simp))
      · exact pairwise_append_one out n sd hinv hnd hpw
    · have hd : recDomain n = "" := not_ne_iff.mp h5
      refine ih (out ++ [n]) sd _ ?_ ?_
      · intro x hx hxne
        rcases List.mem_append.mp hx with hxo | hxn
        · exact hinv x hxo hxne
        · simp only [List.mem_singleton] at hxn
          subst hxn
          exact absurd hd hxne
      · exact pairwise_append_one out n sd hinv (Or.inl hd) hpw

end NewsAggregator

/-! ## Claim C2 -/

/-- C2, as stated, is false: the latest-unique-portal walk never admits a
second record from a host it has already taken — there is no
"host appears twice when fewer than `limit` hosts exist" fallback — so
the 12-record/4-host S3 input with limit 5 selects 4 records, not 5. -/
theorem claim_C2_counterexample :
    (NewsAggregator.select_latest_unique_portals NewsAggregator.s3Input 5).length = 4 ∧
    ¬((NewsAggregator.select_latest_unique_portals NewsAggregator.s3Input 5).length = 5) := by
  decide

/-- C2 amended: the selection admits at most one record per non-empty
host (never two, even when fewer than `limit` hosts exist), returns at
most `limit` records, and on the S3 input (12 records over the 4 hosts
a/b/c/d, limit 5) returns exactly the 4 newest records of the 4 distinct
hosts, ordered by `published_at` descending. -/
theorem claim_C2_amended :
    (∀ (noticias : List NewsAggregator.NoticiaRec) (limit : ℕ), 1 ≤ limit →
      (NewsAggregator.select_latest_unique_portals noticias limit).length ≤ limit ∧
      (NewsAggregator.select_latest_unique_portals noticias limit).Pairwise
        NewsAggregator.DistinctPortals) ∧
    NewsAggregator.select_latest_unique_portals NewsAggregator.s3Input 5 =
      [⟨"r1", "https://a.com/1", none, some 12⟩,
       ⟨"r2", "https://b.com/2", none, some 11⟩,
       ⟨"r3", "https://c.com/3", none, some 10⟩,
       ⟨"r4", "https://d.com/4", none, some 9⟩] := by
  refine ⟨?_, by decide⟩
  intro noticias limit hlim
  unfold NewsAggregator.select_latest_unique_portals
  split_ifs with h0
  · simp
  · constructor
    · exact NewsAggregator.selectLoop_length limit _ [] [] [] (by simpa using hlim)
    · exact NewsAggregator.selectLoop_pairwise limit _ [] [] [] (by simp) (by simp)

/-- Witness for C2 amended at the S3 input with limit 5. -/
theorem claim_C2_witness :
    (NewsAggregator.select_latest_unique_portals NewsAggregator.s3Input 5).length ≤ 5 ∧
    (NewsAggregator.select_latest_unique_portals NewsAggregator.s3Input 5).Pairwise
      NewsAggregator.DistinctPortals :=
  claim_C2_amended.1 NewsAggregator.s3Input 5 (by norm_num)

namespace Database

theorem mem_insert_social_mention (table : List SocialMention)
    (m x : SocialMention) (hx : x ∈ insert_social_mention table m) :
    x ∈ table ∨ x = m := by
  induction table with
  | nil =>
    simp only [insert_social_mention, List.mem_singleton] at hx
    exact Or.inr hx
  | cons r rs ih =>
    simp only [insert_social_mention] at hx
    split_ifs at hx with hc
    · rcases List.mem_cons.mp hx with h | h
      · exact Or.inr h
      · exact Or.inl (List.mem_cons_of_mem _ h)
    · rcases List.mem_cons.mp hx with h | h
      · exact Or.inl (h ▸ List.mem_cons_self _ _)
      · rcases ih h with h2 | h2
        · exact Or.inl (List.mem_cons_of_mem _ h2)
        · exact Or.inr h2

theorem insert_social_mention_unique (table : List SocialMention)
    (m : SocialMention) (hu : MentionKeyUnique table) :
    MentionKeyUnique (insert_social_mention table m) := by
  induction table with
  | nil =>
    simp [insert_social_mention, MentionKeyUnique]
  | cons r rs ih =>
    rw [MentionKeyUnique, List.pairwise_cons] at hu
    simp only [insert_social_mention]
    split_ifs with hc
    · rw [MentionKeyUnique, List.pairwise_cons]
      refine ⟨?_, hu.2⟩
      intro x hx
      have hk := hu.1 x hx
      simp only [Bool.and_eq_true, decide_eq_true_eq] at hc
      rcases hk with h | h
      · exact Or.inl (hc.1 ▸ h)
      · exact Or.inr (hc.2 ▸ h)
    · rw [MentionKeyUnique, List.pairwise_cons]
      refine ⟨?_, ih hu.2⟩
      intro x hx
      rcases mem_insert_social_mention rs m x hx with h | h
      · exact hu.1 x h
      · subst h
        simp only [Bool.and_eq_true, decide_eq_true_eq, not_and] at hc
        by_cases hp : r.plataforma = x.plataforma
        · exact Or.inr (hc hp)
        · exact Or.inl hp

theorem insert_social_mentions_batch_unique (table : List SocialMention)
    (ms : List SocialMention) (hu : MentionKeyUnique table) :
    MentionKeyUnique (insert_social_mentions_batch table ms) := by
  induction ms generalizing table with
  | nil => exact hu
  | cons m rest ih =>
    exact ih (insert_social_mention table m)
      (insert_social_mention_unique table m hu)

end Database

/-! ## Claim C3 -/

/-- C3, as stated, is false: the upsert conflict key of `social_mentions`
is `plataforma,mention_id` — it does not include the politician — so two
mentions that differ only in their politician foreign key collide, and
after upserting both only one row (the second) remains. -/
theorem claim_C3_counterexample :
    Database.insert_social_mention
      (Database.insert_social_mention [] ⟨1, "twitter", "m1", "conteudo"⟩)
      ⟨2, "twitter", "m1", "conteudo"⟩ = [⟨2, "twitter", "m1", "conteudo"⟩] ∧
    (Database.insert_social_mention
      (Database.insert_social_mention [] ⟨1, "twitter", "m1", "conteudo"⟩)
      ⟨2, "twitter", "m1", "conteudo"⟩).length = 1 := by
  decide

/-- C3 amended: single and batch social-mention upserts resolve conflicts
on exactly (platform, mention id): starting from any store with at most
one row per (platform, mention id), any sequence of upserts preserves
that invariant, and a mention differing from a stored one only in its
politician foreign key replaces it rather than creating a second row. -/
theorem claim_C3_amended :
    (∀ (table : List Database.SocialMention) (m : Database.SocialMention),
      Database.MentionKeyUnique table →
      Database.MentionKeyUnique (Database.insert_social_mention table m)) ∧
    (∀ (table ms : List Database.SocialMention),
      Database.MentionKeyUnique table →
      Database.MentionKeyUnique (Database.insert_social_mentions_batch table ms)) ∧
    (∀ a b : Database.SocialMention,
      a.plataforma = b.plataforma → a.mention_id = b.mention_id →
      Database.insert_social_mention (Database.insert_social_mention [] a) b =
        [b]) := by
  refine ⟨Database.insert_social_mention_unique,
    Database.insert_social_mentions_batch_unique, ?_⟩
  intro a b hp hm
  simp [Database.insert_social_mention, hp, hm]

/-- Witness for C3 amended: a two-upsert run on an empty store. -/
theorem claim_C3_witness :
    Database.MentionKeyUnique
      (Database.insert_social_mentions_batch []
        [⟨1, "twitter", "m1", "c"⟩, ⟨1, "bluesky", "m1", "c"⟩]) ∧
    Database.insert_social_mention
      (Database.insert_social_mention [] ⟨1, "twitter", "m1", "c"⟩)
      ⟨2, "twitter", "m1", "c"⟩ = [⟨2, "twitter", "m1", "c"⟩] := by
  constructor
  · exact claim_C3_amended.2.1 []
      [⟨1, "twitter", "m1", "c"⟩, ⟨1, "bluesky", "m1", "c"⟩] (by simp [Database.MentionKeyUnique])
  · exact claim_C3_amended.2.2 ⟨1, "twitter", "m1", "c"⟩ ⟨2, "twitter", "m1", "c"⟩ rfl rfl

/-! ## Claim C4 -/

/-- C4, as stated, is false: `update_trending_topics` issues two separate
store calls — delete the category, then insert the new rows — with no
transaction, so a read interleaved between them observes zero rows for
the category while none of the new run's rows is visible yet, fewer than
the previous run's one row. -/
theorem claim_C4_counterexample :
    (Database.get_trending_topics
      (Database.trendingDelete [⟨"politica", 1, "antigo"⟩] "politica")
      "politica").length = 0 ∧
    (Database.get_trending_topics [⟨"politica", 1, "antigo"⟩] "politica").length = 1 ∧
    ¬(⟨"politica", 1, "novo"⟩ ∈ Database.get_trending_topics
      (Database.trendingDelete [⟨"politica", 1, "antigo"⟩] "politica") "politica") ∧
    Database.update_trending_topics [⟨"politica", 1, "antigo"⟩]
      [⟨"politica", 1, "novo"⟩] "politica" = [⟨"politica", 1, "novo"⟩] := by
  decide

/-- C4 amended: the replacement is delete-then-insert in two store calls.
A reader sees exactly three possible category states: the old rows
(before the delete), the empty category (between the two calls — the
point where the claimed atomicity fails), and exactly the new run's rows
(after the insert). -/
theorem claim_C4_amended (table topics : List Database.TrendingTopic)
    (category : String) :
    Database.get_trending_topics (Database.trendingDelete table category)
      category = [] ∧
    Database.get_trending_topics
      (Database.update_trending_topics table topics category) category =
      (topics.map (fun t => { t with category := category })).foldl
        (fun acc x => Database.insertRankAsc x acc) [] := by
  constructor
  · unfold Database.get_trending_topics Database.trendingDelete
    rw [show List.filter (fun t => decide (t.category = category))
        (List.filter (fun t => decide (t.category ≠ category)) table) = [] from ?_]
    · rfl
    · rw [List.filter_eq_nil_iff]
      intro a ha
      have := List.of_mem_filter ha
      simp at this ⊢
      exact this
  · unfold Database.get_trending_topics Database.update_trending_topics
      Database.trendingInsert Database.trendingDelete
    congr 1
    rw [List.filter_append]
    have h1 : List.filter (fun t => decide (t.category = category))
        (List.filter (fun t => decide (t.category ≠ category)) table) = [] := by
      rw [List.filter_eq_nil_iff]
      intro a ha
      have := List.of_mem_filter ha
      simp at this ⊢
      exact this
    rw [h1]
    have h2 : List.filter (fun t => decide (t.category = category))
        (topics.map (fun t => { t with category := category })) =
        topics.map (fun t => { t with category := category }) := by
      rw [List.filter_eq_self]
      intro a ha
      rcases List.mem_map.mp ha with ⟨t, _, ht⟩
      subst ht
      simp
    rw [h2, List.nil_append]

namespace TopicAnalyzer

theorem applyBatch_error (batch : List MencaoIn) (msg : String) :
    ∀ p ∈ applyBatch batch (Except.error msg), p.2 = classificacao_padrao := by
  intro p hp
  simp only [applyBatch, List.mem_map] at hp
  rcases hp with ⟨m, _, hm⟩
  rw [← hm]

theorem applyBatch_ok_padrao (batch : List MencaoIn) (cls : List Cls)
    (hcls : ∀ c ∈ cls, c = classificacao_padrao) :
    ∀ p ∈ applyBatch batch (Except.ok cls), p.2 = classificacao_padrao := by
  intro p hp
  simp only [applyBatch, List.mem_map] at hp
  rcases hp with ⟨q, _, hq⟩
  rw [← hq]
  simp only []
  cases hg : cls.get? q.1 with
  | none => simp [hg]
  | some c =>
    simp only [hg, Option.getD_some]
    exact hcls c (List.get?_mem hg)

theorem interno_failing_padrao (msg : String) (batch : List MencaoIn) :
    ∀ p ∈ applyBatch batch
      (classificar_batch_interno (fun _ => Except.error msg) batch).1,
      p.2 = classificacao_padrao := by
  simp only [classificar_batch_interno]
  split_ifs with h
  · refine applyBatch_ok_padrao batch _ ?_
    intro c hc
    rcases List.mem_map.mp hc with ⟨m, _, hm⟩
    exact hm.symm
  · exact applyBatch_error batch msg

theorem fold_failing_padrao (msg : String) (chunks : List (List MencaoIn))
    (acc : List (MencaoIn × Cls) × ℕ)
    (hacc : ∀ p ∈ acc.1, p.2 = classificacao_padrao) :
    ∀ p ∈ (chunks.foldl
      (fun acc batch =>
        let r := classificar_batch_interno (fun _ => Except.error msg) batch
        (acc.1 ++ applyBatch batch r.1, acc.2 + r.2)) acc).1,
      p.2 = classificacao_padrao := by
  induction chunks generalizing acc with
  | nil => exact hacc
  | cons b bs ih =>
    rw [List.foldl_cons]
    refine ih _ ?_
    intro p hp
    rcases List.mem_append.mp hp with h | h
    · exact hacc p h
    · exact interno_failing_padrao msg b p h

end TopicAnalyzer

/-! ## Claim C9 -/

/-- C9: with the endpoint unconfigured, batch classification returns the
default {Outro, "", neutro} for every mention with zero endpoint calls;
normalization maps any category outside the closed set to "Outro", keeps
the detail at ≤ 150 characters, and forces any sentiment outside
{positivo, negativo, neutro} to "neutro"; and when every endpoint call
fails, every mention still comes back with the default classification
(the embedding is a total function: no exception escapes). -/
theorem claim_C9 :
    (∀ (oracle : List TopicAnalyzer.MencaoIn →
        Except String (List TopicAnalyzer.RawCls))
      (mencoes : List TopicAnalyzer.MencaoIn),
      TopicAnalyzer.classificar_batch false oracle mencoes =
        (mencoes.map (fun m => (m, TopicAnalyzer.classificacao_padrao)), 0)) ∧
    (∀ r : TopicAnalyzer.RawCls,
      (TopicAnalyzer.normalizar_resultado r).assunto ∈ TopicAnalyzer.CATEGORIAS ∧
      (∀ a, r.assunto = some a → a ∉ TopicAnalyzer.CATEGORIAS →
        (TopicAnalyzer.normalizar_resultado r).assunto = "Outro") ∧
      (TopicAnalyzer.normalizar_resultado r).sentimento ∈
        (["positivo", "negativo", "neutro"] : List String) ∧
      (TopicAnalyzer.normalizar_resultado r).assunto_detalhe.length ≤ 150) ∧
    (∀ (msg : String) (mencoes : List TopicAnalyzer.MencaoIn),
      ∀ p ∈ (TopicAnalyzer.classificar_batch true
        (fun _ => Except.error msg) mencoes).1,
        p.2 = TopicAnalyzer.classificacao_padrao) := by
  refine ⟨fun oracle mencoes => rfl, ?_, ?_⟩
  · intro r
    refine ⟨?_, ?_, ?_, ?_⟩
    · simp only [TopicAnalyzer.normalizar_resultado]
      split_ifs with h1
      · exact List.mem_of_elem_eq_true h1
      · decide
    · intro a ha hna
      simp only [TopicAnalyzer.normalizar_resultado, ha, Option.getD_some]
      rw [if_neg (fun hc => hna (List.mem_of_elem_eq_true hc))]
    · simp only [TopicAnalyzer.normalizar_resultado]
      split_ifs with h1
      · exact List.mem_of_elem_eq_true h1
      · decide
    · simp only [TopicAnalyzer.normalizar_resultado]
      split_ifs with h1
      · rw [String.length_append]
        have h3 : (r.assunto_detalhe.getD "").toList.length =
            (r.assunto_detalhe.getD "").length := by simp
        have h2 : (String.mk ((r.assunto_detalhe.getD "").toList.take 147)).length
            = 147 := by
          have h4 : (String.mk
              ((r.assunto_detalhe.getD "").toList.take 147)).length =
              ((r.assunto_detalhe.getD "").toList.take 147).length := by simp
          rw [h4, List.length_take]
          omega
        rw [h2]
        norm_num [show ("..." : String).length = 3 from rfl]
      · omega
  · intro msg mencoes
    unfold TopicAnalyzer.classificar_batch
    simp only [Bool.not_true, Bool.false_eq_true, if_false]
    exact TopicAnalyzer.fold_failing_padrao msg _ ([], 0) (by simp)

/-- Witness for C9: an unavailable client on one mention, a category
outside the closed set, and a failing endpoint on one mention. -/
theorem claim_C9_witness :
    TopicAnalyzer.classificar_batch false (fun _ => Except.error "down")
      [⟨some "oi"⟩] =
      ([(⟨some "oi"⟩, TopicAnalyzer.classificacao_padrao)], 0) ∧
    (TopicAnalyzer.normalizar_resultado
      ⟨some "Esportes", some "detalhe", some "positivo"⟩).assunto = "Outro" ∧
    ((⟨some "oi"⟩ : TopicAnalyzer.MencaoIn),
      TopicAnalyzer.classificacao_padrao).2 = TopicAnalyzer.classificacao_padrao := by
  refine ⟨claim_C9.1 (fun _ => Except.error "down") [⟨some "oi"⟩], ?_, ?_⟩
  · exact (claim_C9.2.1 ⟨some "Esportes", some "detalhe", some "positivo"⟩).2.1
      "Esportes" rfl (by decide)
  · exact claim_C9.2.2 "down" [⟨some "oi"⟩]
      (⟨some "oi"⟩, TopicAnalyzer.classificacao_padrao)
      (by simp [TopicAnalyzer.classificar_batch, TopicAnalyzer.chunk5,
        TopicAnalyzer.classificar_batch_interno, TopicAnalyzer.applyBatch,
        TopicAnalyzer.classificacao_padrao])

namespace SocialMentions

theorem addMencao_spec (a : TopicAgg) (m : MencaoAg) :
    (addMencao a m).assunto = a.assunto ∧
    (addMencao a m).total_mencoes = a.total_mencoes + 1 ∧
    (addMencao a m).engagement_total = a.engagement_total + engOf m ∧
    (addMencao a m).mencoes_positivas = a.mencoes_positivas +
      (if m.sentimento = some "positivo" then 1 else 0) ∧
    (addMencao a m).mencoes_negativas = a.mencoes_negativas +
      (if m.sentimento ≠ some "positivo" ∧ m.sentimento = some "negativo"
       then 1 else 0) ∧
    (addMencao a m).mencoes_neutras = a.mencoes_neutras +
      (if m.sentimento ≠ some "positivo" ∧ m.sentimento ≠ some "negativo"
       then 1 else 0) := by
  cases hp : m.posted_at with
  | none =>
    simp only [addMencao, hp]
    split_ifs <;> simp_all
  | some t =>
    simp only [addMencao, hp]
    split_ifs
    all_goals cases hu : a.ultima_mencao
    all_goals simp_all
    all_goals (try split_ifs)
    all_goals simp_all

theorem foldl_addMencao_spec (xs : List MencaoAg) (acc : TopicAgg) :
    (xs.foldl addMencao acc).assunto = acc.assunto ∧
    (xs.foldl addMencao acc).total_mencoes = acc.total_mencoes + xs.length ∧
    (xs.foldl addMencao acc).engagement_total =
      acc.engagement_total + (xs.map engOf).sum ∧
    (xs.foldl addMencao acc).mencoes_positivas = acc.mencoes_positivas +
      (xs.filter (fun m => m.sentimento = some "positivo")).length ∧
    (xs.foldl addMencao acc).mencoes_negativas = acc.mencoes_negativas +
      (xs.filter (fun m => m.sentimento ≠ some "positivo" ∧
        m.sentimento = some "negativo")).length ∧
    (xs.foldl addMencao acc).mencoes_neutras = acc.mencoes_neutras +
      (xs.filter (fun m => m.sentimento ≠ some "positivo" ∧
        m.sentimento ≠ some "negativo")).length := by
  induction xs generalizing acc with
  | nil => simp
  | cons x rest ih =>
    rw [List.foldl_cons]
    have hx := addMencao_spec acc x
    have hr := ih (addMencao acc x)
    refine ⟨by rw [hr.1, hx.1], ?_, ?_, ?_, ?_, ?_⟩
    · rw [hr.2.1, hx.2.1]
      simp only [List.length_cons]
      omega
    · rw [hr.2.2.1, hx.2.2.1]
      simp only [List.map_cons, List.sum_cons]
      ring
    · rw [hr.2.2.2.1, hx.2.2.2.1]
      simp only [List.filter_cons, decide_eq_true_eq]
      split_ifs with hcond
      · simp only [List.length_cons]
        omega
      · omega
    · rw [hr.2.2.2.2.1, hx.2.2.2.2.1]
      simp only [List.filter_cons, decide_eq_true_eq]
      split_ifs with hcond
      · simp only [List.length_cons]
        omega
      · omega
    · rw [hr.2.2.2.2.2, hx.2.2.2.2.2]
      simp only [List.filter_cons, decide_eq_true_eq]
      split_ifs with hcond
      · simp only [List.length_cons]
        omega
      · omega

theorem foldl_addMencao_sum (xs : List MencaoAg) (acc : TopicAgg) :
    (xs.foldl addMencao acc).mencoes_positivas +
      (xs.foldl addMencao acc).mencoes_negativas +
      (xs.foldl addMencao acc).mencoes_neutras =
      acc.mencoes_positivas + acc.mencoes_negativas + acc.mencoes_neutras +
        xs.length := by
  induction xs generalizing acc with
  | nil => simp
  | cons x rest ih =>
    rw [List.foldl_cons]
    have hx := addMencao_spec acc x
    have hr := ih (addMencao acc x)
    rw [hr, hx.2.2.2.1, hx.2.2.2.2.1, hx.2.2.2.2.2]
    simp only [List.length_cons]
    by_cases hp : x.sentimento = some "positivo"
    · by_cases hq : x.sentimento = some "negativo"
      · rw [hp] at hq
        simp at hq
      · simp [hp, hq]
        omega
    · by_cases hq : x.sentimento = some "negativo"
      · simp [hp, hq]
        omega
      · simp [hp, hq]
        omega

theorem aggUpd_find?_eq (acc : List (String × TopicAgg)) (k : String)
    (m : MencaoAg) :
    List.find? (fun e => e.1 = k) (aggUpd acc k m) =
      some (k, match List.find? (fun e => e.1 = k) acc with
        | none => addMencao (initAgg k) m
        | some e => addMencao e.2 m) := by
  induction acc with
  | nil => simp [aggUpd, List.find?]
  | cons e es ih =>
    by_cases he : e.1 = k
    · simp only [aggUpd, if_pos he]
      rw [List.find?_cons_of_pos _ (by simp)]
      rw [List.find?_cons_of_pos _ (by simpa using he)]
    · simp only [aggUpd, if_neg he]
      rw [List.find?_cons_of_neg _ (by simpa using he)]
      rw [List.find?_cons_of_neg _ (by simpa using he)]
      exact ih

theorem aggUpd_find?_ne (acc : List (String × TopicAgg)) (k : String)
    (m : MencaoAg) (q : String) (h : q ≠ k) :
    List.find? (fun e => e.1 = q) (aggUpd acc k m) =
      List.find? (fun e => e.1 = q) acc := by
  induction acc with
  | nil =>
    rw [show aggUpd [] k m = [(k, addMencao (initAgg k) m)] from rfl]
    rw [List.find?_cons_of_neg _ (by simpa using fun hq : k = q => h hq.symm)]
  | cons e es ih =>
    by_cases he : e.1 = k
    · simp only [aggUpd, if_pos he]
      have hq : ¬ (e.1 = q) := fun hc => h (hc ▸ he)
      rw [List.find?_cons_of_neg _ (by simpa using fun hc : k = q => h hc.symm)]
      rw [List.find?_cons_of_neg _ (by simpa using hq)]
    · simp only [aggUpd, if_neg he]
      by_cases hq : e.1 = q
      · rw [List.find?_cons_of_pos _ (by simpa using hq),
          List.find?_cons_of_pos _ (by simpa using hq)]
      · rw [List.find?_cons_of_neg _ (by simpa using hq),
          List.find?_cons_of_neg _ (by simpa using hq)]
        exact ih

theorem aggUpd_of_not_mem (acc : List (String × TopicAgg)) (k : String)
    (m : MencaoAg) (h : k ∉ acc.map Prod.fst) :
    aggUpd acc k m = acc ++ [(k, addMencao (initAgg k) m)] := by
  induction acc with
  | nil => rfl
  | cons e es ih =>
    simp only [List.map_cons, List.mem_cons] at h
    push_neg at h
    simp only [aggUpd, if_neg (show ¬ e.1 = k from fun hq => h.1 hq.symm)]
    rw [ih h.2]
    rfl

theorem aggUpd_fst_of_mem (acc : List (String × TopicAgg)) (k : String)
    (m : MencaoAg) (h : k ∈ acc.map Prod.fst) :
    (aggUpd acc k m).map Prod.fst = acc.map Prod.fst := by
  induction acc with
  | nil => simp at h
  | cons e es ih =>
    by_cases he : e.1 = k
    · simp [aggUpd, he]
    · simp only [List.map_cons, List.mem_cons] at h
      rcases h with h | h
      · exact absurd h.symm he
      · simp only [aggUpd, if_neg he, List.map_cons]
        rw [ih h]

theorem agregar_append (ms : List MencaoAg) (m : MencaoAg) :
    agregar_topicos (ms ++ [m]) =
      aggUpd (agregar_topicos ms) (subjectOf m) m := by
  simp [agregar_topicos, List.foldl_append]

theorem agregar_find? (ms : List MencaoAg) (k : String) :
    List.find? (fun e => e.1 = k) (agregar_topicos ms) =
      match ms.filter (fun m => subjectOf m = k) with
      | [] => none
      | a :: as => some (k, (a :: as).foldl addMencao (initAgg k)) := by
  induction ms using List.reverseRecOn with
  | nil => simp [agregar_topicos, List.find?]
  | append_singleton ms m ih =>
    rw [agregar_append]
    by_cases hk : subjectOf m = k
    · subst hk
      rw [aggUpd_find?_eq, ih]
      have hfil : (ms ++ [m]).filter (fun x => subjectOf x = subjectOf m) =
          ms.filter (fun x => subjectOf x = subjectOf m) ++ [m] := by
        simp [List.filter_append]
      rw [hfil]
      cases hfl : ms.filter (fun x => subjectOf x = subjectOf m) with
      | nil => simp
      | cons a as =>
        show _ = some (subjectOf m, (a :: (as ++ [m])).foldl addMencao
          (initAgg (subjectOf m)))
        simp only [List.foldl_cons]
        rw [List.foldl_append]
        simp
    · rw [aggUpd_find?_ne _ _ _ _ (fun h => hk h.symm), ih]
      have hfil : (ms ++ [m]).filter (fun x => subjectOf x = k) =
          ms.filter (fun x => subjectOf x = k) := by
        simp [List.filter_append, hk]
      rw [hfil]

theorem agregar_fst_nodup (ms : List MencaoAg) :
    ((agregar_topicos ms).map Prod.fst).Nodup := by
  induction ms using List.reverseRecOn with
  | nil => simp [agregar_topicos]
  | append_singleton ms m ih =>
    rw [agregar_append]
    by_cases hm : subjectOf m ∈ (agregar_topicos ms).map Prod.fst
    · rw [aggUpd_fst_of_mem _ _ _ hm]
      exact ih
    · rw [aggUpd_of_not_mem _ _ _ hm, List.map_append]
      refine List.Nodup.append ih (by simp) ?_
      simp only [List.map_cons, List.map_nil]
      intro a ha hb
      simp at hb
      subst hb
      exact hm ha

theorem agg_find?_eq_of_mem_of_nodup (acc : List (String × TopicAgg))
    (e : String × TopicAgg) (hn : (acc.map Prod.fst).Nodup) (he : e ∈ acc) :
    List.find? (fun x => x.1 = e.1) acc = some e := by
  induction acc with
  | nil => simp at he
  | cons a as ih =>
    simp only [List.map_cons, List.nodup_cons] at hn
    rcases List.mem_cons.mp he with h | h
    · subst h
      exact List.find?_cons_of_pos _ (by simp)
    · have hne : ¬ (a.1 = e.1) := by
        intro hc
        exact hn.1 (hc ▸ List.mem_map_of_mem Prod.fst h)
      rw [List.find?_cons_of_neg _ (by simpa using hne)]
      exact ih hn.2 h

end SocialMentions

/-! ## Claim C10 -/

/-- C10: every per-subject row produced by the topic roll-up satisfies
`total = positivas + negativas + neutras`; a mention whose sentiment is
neither "positivo" nor "negativo" (missing included) counts as neutral;
`engagement_total` is the sum of the grouped mentions' engagement scores
(missing scored as 0); and a mention with a missing subject is grouped
under "Outro". -/
theorem claim_C10 :
    (∀ (mencoes : List SocialMentions.MencaoAg) (k : String)
      (a : SocialMentions.TopicAgg),
      (k, a) ∈ SocialMentions.agregar_topicos mencoes →
      a.assunto = k ∧
      a.total_mencoes = a.mencoes_positivas + a.mencoes_negativas +
        a.mencoes_neutras ∧
      a.total_mencoes =
        (mencoes.filter (fun m => SocialMentions.subjectOf m = k)).length ∧
      a.engagement_total =
        ((mencoes.filter (fun m => SocialMentions.subjectOf m = k)).map
          SocialMentions.engOf).sum ∧
      a.mencoes_neutras =
        ((mencoes.filter (fun m => SocialMentions.subjectOf m = k)).filter
          (fun m => m.sentimento ≠ some "positivo" ∧
            m.sentimento ≠ some "negativo")).length) ∧
    (∀ m : SocialMentions.MencaoAg, m.assunto = none →
      SocialMentions.subjectOf m = "Outro") ∧
    (∀ m : SocialMentions.MencaoAg, m.engagement_score = none →
      SocialMentions.engOf m = 0) := by
  refine ⟨?_, ?_, ?_⟩
  · intro mencoes k a hmem
    have hfind := SocialMentions.agg_find?_eq_of_mem_of_nodup _ (k, a)
      (SocialMentions.agregar_fst_nodup mencoes) hmem
    rw [SocialMentions.agregar_find?] at hfind
    cases hfl : mencoes.filter (fun m => SocialMentions.subjectOf m = k) with
    | nil =>
      rw [hfl] at hfind
      simp at hfind
    | cons x xs =>
      rw [hfl] at hfind
      simp only [Option.some.injEq, Prod.mk.injEq] at hfind
      have ha : a = (x :: xs).foldl SocialMentions.addMencao
          (SocialMentions.initAgg k) := hfind.2.symm
      have hspec := SocialMentions.foldl_addMencao_spec (x :: xs)
        (SocialMentions.initAgg k)
      have hsum := SocialMentions.foldl_addMencao_sum (x :: xs)
        (SocialMentions.initAgg k)
      rw [ha]
      refine ⟨?_, ?_, ?_, ?_, ?_⟩
      · rw [hspec.1]
        rfl
      · rw [hspec.2.1, hsum]
        simp [SocialMentions.initAgg]
      · rw [hspec.2.1]
        simp [SocialMentions.initAgg]
      · rw [hspec.2.2.1]
        simp [SocialMentions.initAgg]
      · rw [hspec.2.2.2.2.2]
        simp [SocialMentions.initAgg]
  · intro m hm
    simp [SocialMentions.subjectOf, strOr, hm]
  · intro m hm
    simp [SocialMentions.engOf, hm]

/-- Witness for C10: a concrete two-mention group plus the
missing-subject and missing-engagement defaults. -/
theorem claim_C10_witness :
    ((⟨"Economia", 2, 1, 0, 1, 0, none⟩ : SocialMentions.TopicAgg).total_mencoes =
      (⟨"Economia", 2, 1, 0, 1, 0, none⟩ : SocialMentions.TopicAgg).mencoes_positivas +
      (⟨"Economia", 2, 1, 0, 1, 0, none⟩ : SocialMentions.TopicAgg).mencoes_negativas +
      (⟨"Economia", 2, 1, 0, 1, 0, none⟩ : SocialMentions.TopicAgg).mencoes_neutras) ∧
    SocialMentions.subjectOf ⟨none, none, some 5, none⟩ = "Outro" ∧
    SocialMentions.engOf ⟨some "Economia", some "positivo", none, none⟩ = 0 := by
  refine ⟨?_, claim_C10.2.1 ⟨none, none, some 5, none⟩ rfl,
    claim_C10.2.2 ⟨some "Economia", some "positivo", none, none⟩ rfl⟩
  exact (claim_C10.1
    [⟨some "Economia", some "positivo", none, none⟩,
     ⟨some "Economia", none, none, none⟩] "Economia"
    ⟨"Economia", 2, 1, 0, 1, 0, none⟩
    (by simp [SocialMentions.agregar_topicos, SocialMentions.aggUpd,
      SocialMentions.addMencao, SocialMentions.initAgg,
      SocialMentions.subjectOf, strOr, SocialMentions.engOf])).2.1

namespace Database

theorem groupUpd_fst (m : List (String × List DBNoticia)) (k : String)
    (n : DBNoticia) :
    (groupUpd m k n).map Prod.fst =
      if k ∈ m.map Prod.fst then m.map Prod.fst else m.map Prod.fst ++ [k] := by
  induction m with
  | nil => simp [groupUpd]
  | cons e es ih =>
    by_cases he : e.1 = k
    · simp [groupUpd, he]
    · simp only [groupUpd, if_neg he, List.map_cons, ih]
      by_cases hm : k ∈ es.map Prod.fst
      · rw [if_pos hm, if_pos (by exact List.mem_cons.mpr (Or.inr hm))]
      · rw [if_neg hm, if_neg (by
          simp only [List.mem_cons]
          push_neg
          exact ⟨fun h => he h.symm, hm⟩)]
        rfl

theorem groupUpd_mem_snd (m : List (String × List DBNoticia)) (k : String)
    (n : DBNoticia) (f : String) (lst : List DBNoticia)
    (h : (f, lst) ∈ groupUpd m k n) :
    (f, lst) ∈ m ∨ (∃ lst0, (f, lst0) ∈ m ∧ f = k ∧ lst = lst0 ++ [n]) ∨
      (f = k ∧ lst = [n]) := by
  induction m with
  | nil =>
    simp only [groupUpd, List.mem_singleton, Prod.mk.injEq] at h
    exact Or.inr (Or.inr ⟨h.1, h.2⟩)
  | cons e es ih =>
    simp only [groupUpd] at h
    split_ifs at h with he
    · rcases List.mem_cons.mp h with h1 | h1
      · simp only [Prod.mk.injEq] at h1
        refine Or.inr (Or.inl ⟨e.2, ?_, h1.1, h1.2⟩)
        have h2 : (f, e.2) = e := by
          rw [h1.1, ← he]
        rw [h2]
        exact List.mem_cons_self _ _
      · exact Or.inl (List.mem_cons_of_mem _ h1)
    · rcases List.mem_cons.mp h with h1 | h1
      · exact Or.inl (h1 ▸ List.mem_cons_self _ _)
      · rcases ih h1 with h2 | h2 | h2
        · exact Or.inl (List.mem_cons_of_mem _ h2)
        · rcases h2 with ⟨l0, hl0, hf, hl⟩
          exact Or.inr (Or.inl ⟨l0, List.mem_cons_of_mem _ hl0, hf, hl⟩)
        · exact Or.inr (Or.inr h2)

end Database

namespace Database

theorem porFonte_append (l : List DBNoticia) (n : DBNoticia) :
    porFonte (l ++ [n]) = groupUpd (porFonte l) (fonteOf n) n := by
  simp [porFonte, List.foldl_append]

theorem porFonte_group_spec (l : List DBNoticia) :
    ∀ f lst, (f, lst) ∈ porFonte l → lst ≠ [] ∧ ∀ x ∈ lst, fonteOf x = f := by
  induction l using List.reverseRecOn with
  | nil =>
    intro f lst h
    simp [porFonte] at h
  | append_singleton l n ih =>
    intro f lst h
    rw [porFonte_append] at h
    rcases groupUpd_mem_snd _ _ _ _ _ h with h1 | h1 | h1
    · exact ih f lst h1
    · rcases h1 with ⟨l0, hl0, hf, hl⟩
      have hih := ih f l0 hl0
      constructor
      · rw [hl]
        simp
      · intro x hx
        rw [hl] at hx
        rcases List.mem_append.mp hx with h2 | h2
        · exact hih.2 x h2
        · simp only [List.mem_singleton] at h2
          rw [h2, hf]
    · refine ⟨by rw [h1.2]; simp, ?_⟩
      intro x hx
      rw [h1.2] at hx
      simp only [List.mem_singleton] at hx
      rw [hx, h1.1]

theorem porFonte_fst_nodup (l : List DBNoticia) :
    ((porFonte l).map Prod.fst).Nodup := by
  induction l using List.reverseRecOn with
  | nil => simp [porFonte]
  | append_singleton l n ih =>
    rw [porFonte_append, groupUpd_fst]
    split_ifs with hm
    · exact ih
    · refine List.Nodup.append ih (by simp) ?_
      intro a ha hb
      simp only [List.mem_singleton] at hb
      subst hb
      exact hm ha

theorem porFonte_keys_mem (l : List DBNoticia) (k : String) :
    k ∈ (porFonte l).map Prod.fst ↔ k ∈ l.map fonteOf := by
  induction l using List.reverseRecOn with
  | nil => simp [porFonte]
  | append_singleton l n ih =>
    rw [porFonte_append, groupUpd_fst]
    simp only [List.map_append, List.map_cons, List.map_nil]
    split_ifs with hm
    · constructor
      · intro h
        exact List.mem_append.mpr (Or.inl (ih.mp h))
      · intro h
        rcases List.mem_append.mp h with h1 | h1
        · exact ih.mpr h1
        · simp only [List.mem_singleton] at h1
          subst h1
          exact hm
    · constructor
      · intro h
        rcases List.mem_append.mp h with h1 | h1
        · exact List.mem_append.mpr (Or.inl (ih.mp h1))
        · exact List.mem_append.mpr (Or.inr h1)
      · intro h
        rcases List.mem_append.mp h with h1 | h1
        · exact List.mem_append.mpr (Or.inl (ih.mpr h1))
        · exact List.mem_append.mpr (Or.inr h1)

theorem groupUpd_join_perm (m : List (String × List DBNoticia)) (k : String)
    (n : DBNoticia) :
    (joinGroups (groupUpd m k n)).Perm (joinGroups m ++ [n]) := by
  induction m with
  | nil =>
    simp [joinGroups, groupUpd]
  | cons e es ih =>
    by_cases he : e.1 = k
    · simp only [groupUpd, if_pos he, joinGroups, List.map_cons,
        List.flatten_cons]
      rw [List.append_assoc, List.append_assoc]
      exact List.Perm.append_left _ List.perm_append_comm
    · simp only [groupUpd, if_neg he, joinGroups, List.map_cons,
        List.flatten_cons]
      rw [List.append_assoc]
      exact List.Perm.append_left _ ih

theorem porFonte_join_perm (l : List DBNoticia) :
    (joinGroups (porFonte l)).Perm l := by
  induction l using List.reverseRecOn with
  | nil => simp [porFonte, joinGroups]
  | append_singleton l n ih =>
    rw [porFonte_append]
    exact List.Perm.trans (groupUpd_join_perm _ _ _)
      (List.Perm.append_right _ ih)

end Database

namespace Database

theorem insertBestDesc_perm (x : String × List DBNoticia)
    (l : List (String × List DBNoticia)) :
    (insertBestDesc x l).Perm (x :: l) := by
  induction l with
  | nil => exact List.Perm.refl _
  | cons e es ih =>
    simp only [insertBestDesc]
    split_ifs with h
    · exact List.Perm.refl _
    · exact List.Perm.trans (List.Perm.cons e ih) (List.Perm.swap x e es)

theorem sortGroupsDesc_perm (gs : List (String × List DBNoticia)) :
    (sortGroupsDesc gs).Perm gs := by
  induction gs using List.reverseRecOn with
  | nil => exact List.Perm.refl _
  | append_singleton gs x ih =>
    have h1 : sortGroupsDesc (gs ++ [x]) = insertBestDesc x (sortGroupsDesc gs) := by
      simp [sortGroupsDesc, List.foldl_append]
    rw [h1]
    have h2 : (x :: gs).Perm (gs ++ [x]) := by
      have h3 : x :: gs = [x] ++ gs := rfl
      rw [h3]
      exact List.perm_append_comm
    exact ((insertBestDesc_perm x (sortGroupsDesc gs)).trans
      (List.Perm.cons x ih)).trans h2

theorem sortGroupsDesc_join_perm (gs : List (String × List DBNoticia)) :
    (joinGroups (sortGroupsDesc gs)).Perm (joinGroups gs) :=
  List.Perm.flatten (List.Perm.map Prod.snd (sortGroupsDesc_perm gs))

end Database

namespace Database

theorem joinGroups_cons (p : String × List DBNoticia)
    (gs : List (String × List DBNoticia)) :
    joinGroups (p :: gs) = p.2 ++ joinGroups gs := by
  simp [joinGroups]

theorem skipSeen_sub (seen : List (Option String)) (lst : List DBNoticia)
    (n : DBNoticia) (rest : List DBNoticia)
    (h : skipSeen seen lst = some (n, rest)) :
    n ∈ lst ∧ ∀ y ∈ rest, y ∈ lst := by
  induction lst with
  | nil => simp [skipSeen] at h
  | cons x xs ih =>
    simp only [skipSeen] at h
    split_ifs at h with hc
    · have hmem := ih h
      exact ⟨List.mem_cons_of_mem _ hmem.1,
        fun y hy => List.mem_cons_of_mem _ (hmem.2 y hy)⟩
    · simp only [Option.some.injEq, Prod.mk.injEq] at h
      refine ⟨h.1 ▸ List.mem_cons_self _ _, ?_⟩
      intro y hy
      rw [← h.2] at hy
      exact List.mem_cons_of_mem _ hy

theorem skipSeen_head (seen : List (Option String)) (x : DBNoticia)
    (xs : List DBNoticia) (hx : x.url ∉ seen) :
    skipSeen seen (x :: xs) = some (x, xs) := by
  simp only [skipSeen]
  rw [if_neg (by simpa using hx)]

theorem rrPass_res_extends (limit : ℕ) (gs : List (String × List DBNoticia))
    (res : List DBNoticia) (seen : List (Option String)) (added : Bool) :
    ∃ ext, (rrPass limit gs res seen added).2.1 = res ++ ext := by
  induction gs generalizing res seen added with
  | nil => exact ⟨[], by simp [rrPass]⟩
  | cons g gs' ih =>
    obtain ⟨f, lst⟩ := g
    simp only [rrPass]
    split_ifs with h1
    · exact ⟨[], by simp⟩
    · cases hs : skipSeen seen lst with
      | none =>
        obtain ⟨ext, hext⟩ := ih res seen added
        exact ⟨ext, hext⟩
      | some p =>
        obtain ⟨n, rest⟩ := p
        obtain ⟨ext, hext⟩ := ih (res ++ [n]) (seen ++ [n.url]) true
        refine ⟨[n] ++ ext, ?_⟩
        rw [hext, List.append_assoc]

theorem rrPass_res_length (limit : ℕ) (gs : List (String × List DBNoticia))
    (res : List DBNoticia) (seen : List (Option String)) (added : Bool)
    (h : res.length ≤ limit) :
    ((rrPass limit gs res seen added).2.1).length ≤ limit := by
  induction gs generalizing res seen added with
  | nil => simpa [rrPass] using h
  | cons g gs' ih =>
    obtain ⟨f, lst⟩ := g
    simp only [rrPass]
    split_ifs with h1
    · simpa using h
    · cases hs : skipSeen seen lst with
      | none => exact ih res seen added h
      | some p =>
        obtain ⟨n, rest⟩ := p
        refine ih (res ++ [n]) (seen ++ [n.url]) true ?_
        simp only [List.length_append, List.length_cons, List.length_nil]
        omega

theorem rrPass_mem (limit : ℕ) (gs : List (String × List DBNoticia))
    (res : List DBNoticia) (seen : List (Option String)) (added : Bool) :
    (∀ x ∈ (rrPass limit gs res seen added).2.1,
      x ∈ res ∨ x ∈ joinGroups gs) ∧
    (∀ x ∈ joinGroups (rrPass limit gs res seen added).1,
      x ∈ joinGroups gs) := by
  induction gs generalizing res seen added with
  | nil =>
    constructor
    · intro x hx
      exact Or.inl (by simpa [rrPass] using hx)
    · intro x hx
      simpa [rrPass] using hx
  | cons g gs' ih =>
    obtain ⟨f, lst⟩ := g
    simp only [rrPass]
    split_ifs with h1
    · constructor
      · intro x hx
        exact Or.inl hx
      · intro x hx
        exact hx
    · cases hs : skipSeen seen lst with
      | none =>
        have hih := ih res seen added
        constructor
        · intro x hx
          rcases hih.1 x hx with h2 | h2
          · exact Or.inl h2
          · refine Or.inr ?_
            rw [joinGroups_cons]
            exact List.mem_append.mpr (Or.inr h2)
        · intro x hx
          rw [joinGroups_cons] at hx
          rcases List.mem_append.mp hx with h2 | h2
          · simp at h2
          · rw [joinGroups_cons]
            exact List.mem_append.mpr (Or.inr (hih.2 x h2))
      | some p =>
        obtain ⟨n, rest⟩ := p
        have hsub := skipSeen_sub seen lst n rest hs
        have hih := ih (res ++ [n]) (seen ++ [n.url]) true
        constructor
        · intro x hx
          rcases hih.1 x hx with h2 | h2
          · rcases List.mem_append.mp h2 with h3 | h3
            · exact Or.inl h3
            · simp only [List.mem_singleton] at h3
              subst h3
              refine Or.inr ?_
              rw [joinGroups_cons]
              exact List.mem_append.mpr (Or.inl hsub.1)
          · refine Or.inr ?_
            rw [joinGroups_cons]
            exact List.mem_append.mpr (Or.inr h2)
        · intro x hx
          rw [joinGroups_cons] at hx
          rcases List.mem_append.mp hx with h2 | h2
          · rw [joinGroups_cons]
            exact List.mem_append.mpr (Or.inl (hsub.2 x h2))
          · rw [joinGroups_cons]
            exact List.mem_append.mpr (Or.inr (hih.2 x h2))

theorem rrPass_heads (limit : ℕ) (gs : List (String × List DBNoticia))
    (res : List DBNoticia) (seen : List (Option String)) (added : Bool)
    (Hne : ∀ p ∈ gs, p.2 ≠ [])
    (Hfresh : ∀ p ∈ gs, ∀ x ∈ p.2, x.url ∉ seen)
    (Hnodup : ((joinGroups gs).map DBNoticia.url).Nodup) :
    (rrPass limit gs res seen added).2.1 =
      res ++ groupHeads (gs.take (limit - res.length)) := by
  induction gs generalizing res seen added with
  | nil => simp [rrPass, groupHeads]
  | cons g gs' ih =>
    obtain ⟨f, lst⟩ := g
    simp only [rrPass]
    split_ifs with h1
    · have h0 : limit - res.length = 0 := by omega
      rw [h0]
      simp [groupHeads]
    · have hlst : lst ≠ [] := Hne (f, lst) (List.mem_cons_self _ _)
      obtain ⟨x, xs, hx⟩ := List.exists_cons_of_ne_nil hlst
      subst hx
      have hxurl : x.url ∉ seen :=
        Hfresh (f, x :: xs) (List.mem_cons_self _ _) x (List.mem_cons_self _ _)
      rw [skipSeen_head seen x xs hxurl]
      have hjoin : joinGroups ((f, x :: xs) :: gs') =
          (x :: xs) ++ joinGroups gs' := joinGroups_cons _ _
      rw [hjoin, List.map_append] at Hnodup
      rw [List.nodup_append] at Hnodup
      have Hne' : ∀ p ∈ gs', p.2 ≠ [] :=
        fun p hp => Hne p (List.mem_cons_of_mem _ hp)
      have Hnodup' : ((joinGroups gs').map DBNoticia.url).Nodup := Hnodup.2.1
      have Hfresh' : ∀ p ∈ gs', ∀ y ∈ p.2, y.url ∉ seen ++ [x.url] := by
        intro p hp y hy
        have hys : y.url ∉ seen := Hfresh p (List.mem_cons_of_mem _ hp) y hy
        have hyx : y.url ≠ x.url := by
          intro heq
          have hxmem : x.url ∈ (x :: xs).map DBNoticia.url := by simp
          have hymem : y.url ∈ (joinGroups gs').map DBNoticia.url := by
            refine List.mem_map_of_mem _ ?_
            have : p.2 ≠ [] := Hne' p hp
            rcases List.mem_map.mp (List.mem_map_of_mem Prod.snd hp) with _
            · exact List.mem_flatten.mpr ⟨p.2, List.mem_map_of_mem Prod.snd hp, hy⟩
          exact Hnodup.2.2 hxmem (heq ▸ hymem)
        intro hmem
        rcases List.mem_append.mp hmem with h2 | h2
        · exact hys h2
        · simp only [List.mem_singleton] at h2
          exact hyx h2
      rw [ih (res ++ [x]) (seen ++ [x.url]) true Hne' Hfresh' Hnodup']
      have hk : limit - res.length = (limit - (res ++ [x]).length) + 1 := by
        simp only [List.length_append, List.length_cons, List.length_nil]
        omega
      rw [hk, List.take_succ_cons]
      have hgh : groupHeads ((f, x :: xs) ::
          gs'.take (limit - (res ++ [x]).length)) =
          x :: groupHeads (gs'.take (limit - (res ++ [x]).length)) := by
        simp [groupHeads]
      rw [hgh, List.append_assoc]
      rfl

theorem rrPass_added_true (limit : ℕ) (gs : List (String × List DBNoticia))
    (res : List DBNoticia) (seen : List (Option String)) :
    (rrPass limit gs res seen true).2.2.2 = true := by
  induction gs generalizing res seen with
  | nil => rfl
  | cons g gs' ih =>
    obtain ⟨f, lst⟩ := g
    simp only [rrPass]
    split_ifs with h1
    · rfl
    · cases hs : skipSeen seen lst with
      | none => exact ih res seen
      | some p => exact ih (res ++ [p.1]) (seen ++ [p.1.url])

theorem rrPass_first_added (limit : ℕ) (f : String) (lst : List DBNoticia)
    (gs' : List (String × List DBNoticia)) (res : List DBNoticia)
    (seen : List (Option String)) (added : Bool)
    (hlt : res.length < limit) (hlst : lst ≠ [])
    (hfresh : ∀ x ∈ lst, x.url ∉ seen) :
    (rrPass limit ((f, lst) :: gs') res seen added).2.2.2 = true := by
  obtain ⟨x, xs, hx⟩ := List.exists_cons_of_ne_nil hlst
  subst hx
  simp only [rrPass]
  rw [if_neg (not_le.mpr hlt)]
  rw [skipSeen_head seen x xs (hfresh x (List.mem_cons_self _ _))]
  exact rrPass_added_true limit gs' (res ++ [x]) (seen ++ [x.url])

theorem rrLoop_extends (limit fuel : ℕ) (gs : List (String × List DBNoticia))
    (res : List DBNoticia) (seen : List (Option String)) :
    ∃ ext, rrLoop limit fuel gs res seen = res ++ ext := by
  induction fuel generalizing gs res seen with
  | zero => exact ⟨[], by simp [rrLoop]⟩
  | succ fuel ih =>
    simp only [rrLoop]
    obtain ⟨ext1, hext1⟩ := rrPass_res_extends limit gs res seen false
    split_ifs with h1 h2
    · exact ⟨[], by simp⟩
    · obtain ⟨ext2, hext2⟩ := ih (rrPass limit gs res seen false).1
        (rrPass limit gs res seen false).2.1
        (rrPass limit gs res seen false).2.2.1
      refine ⟨ext1 ++ ext2, ?_⟩
      rw [hext2, hext1, List.append_assoc]
    · exact ⟨ext1, hext1⟩

theorem rrLoop_length (limit fuel : ℕ) (gs : List (String × List DBNoticia))
    (res : List DBNoticia) (seen : List (Option String))
    (h : res.length ≤ limit) :
    (rrLoop limit fuel gs res seen).length ≤ limit := by
  induction fuel generalizing gs res seen with
  | zero => simpa [rrLoop] using h
  | succ fuel ih =>
    simp only [rrLoop]
    split_ifs with h1 h2
    · exact h
    · exact ih _ _ _ (rrPass_res_length limit gs res seen false h)
    · exact rrPass_res_length limit gs res seen false h

theorem rrLoop_mem (limit fuel : ℕ) (gs : List (String × List DBNoticia))
    (res : List DBNoticia) (seen : List (Option String)) :
    ∀ x ∈ rrLoop limit fuel gs res seen, x ∈ res ∨ x ∈ joinGroups gs := by
  induction fuel generalizing gs res seen with
  | zero =>
    intro x hx
    exact Or.inl (by simpa [rrLoop] using hx)
  | succ fuel ih =>
    intro x hx
    simp only [rrLoop] at hx
    split_ifs at hx with h1 h2
    · exact Or.inl hx
    · rcases ih _ _ _ x hx with h3 | h3
      · rcases (rrPass_mem limit gs res seen false).1 x h3 with h4 | h4
        · exact Or.inl h4
        · exact Or.inr h4
      · exact Or.inr ((rrPass_mem limit gs res seen false).2 x h3)
    · rcases (rrPass_mem limit gs res seen false).1 x hx with h4 | h4
      · exact Or.inl h4
      · exact Or.inr h4

end Database

namespace Database

theorem groupHeads_map_fst (gs : List (String × List DBNoticia))
    (h : ∀ p ∈ gs, p.2 ≠ [] ∧ ∀ x ∈ p.2, fonteOf x = p.1) :
    (groupHeads gs).map fonteOf = gs.map Prod.fst := by
  induction gs with
  | nil => simp [groupHeads]
  | cons p ps ih =>
    obtain ⟨f, lst⟩ := p
    have hp := h (f, lst) (List.mem_cons_self _ _)
    obtain ⟨x, xs, hx⟩ := List.exists_cons_of_ne_nil hp.1
    subst hx
    have ihh := ih (fun q hq => h q (List.mem_cons_of_mem _ hq))
    simp only [groupHeads, List.map_cons, List.headD_cons] at ihh ⊢
    rw [hp.2 x (List.mem_cons_self _ _), ihh]

theorem porFonte_ne_nil (l : List DBNoticia) (h : l ≠ []) :
    porFonte l ≠ [] := by
  obtain ⟨x, xs, hx⟩ := List.exists_cons_of_ne_nil h
  subst hx
  have hm : fonteOf x ∈ (porFonte (x :: xs)).map Prod.fst :=
    (porFonte_keys_mem _ _).mpr (by simp)
  intro hc
  rw [hc] at hm
  simp at hm

theorem porFonte_length_card (l : List DBNoticia) :
    (porFonte l).length = (l.map fonteOf).toFinset.card := by
  have h1 : ((porFonte l).map Prod.fst).toFinset = (l.map fonteOf).toFinset := by
    ext k
    simp only [List.mem_toFinset]
    exact porFonte_keys_mem l k
  have h2 : ((porFonte l).map Prod.fst).toFinset.card =
      ((porFonte l).map Prod.fst).length :=
    List.toFinset_card_of_nodup (porFonte_fst_nodup l)
  rw [← h1, h2]
  simp

end Database

namespace Database

theorem diversificar_distinct_sources (noticias : List DBNoticia) (limit : ℕ)
    (hnodup : (noticias.map DBNoticia.url).Nodup) :
    ((diversificar_noticias_por_fonte noticias limit).map fonteOf).toFinset.card
      = min ((noticias.map fonteOf).toFinset.card) limit ∧
    (diversificar_noticias_por_fonte noticias limit).length ≤ limit := by
  by_cases hnil : noticias = []
  · subst hnil
    simp [diversificar_noticias_por_fonte]
  · by_cases hone : (porFonte noticias).length ≤ 1
    · have hne := porFonte_ne_nil noticias hnil
      have hlen1 : (porFonte noticias).length = 1 := by
        have h1 : 1 ≤ (porFonte noticias).length := by
          cases hpf : porFonte noticias with
          | nil => exact absurd hpf hne
          | cons g gsx => simp
        omega
      have hK : (noticias.map fonteOf).toFinset.card = 1 := by
        rw [← porFonte_length_card]
        exact hlen1
      have hres : diversificar_noticias_por_fonte noticias limit =
          noticias.take limit := by
        simp only [diversificar_noticias_por_fonte]
        rw [if_neg hnil, if_pos hone]
      rw [hres, hK]
      by_cases hl0 : limit = 0
      · subst hl0
        simp
      · have hl1 : 1 ≤ limit := Nat.one_le_iff_ne_zero.mpr hl0
        constructor
        · have hsub : ((noticias.take limit).map fonteOf).toFinset ⊆
              (noticias.map fonteOf).toFinset := by
            intro a ha
            simp only [List.mem_toFinset] at ha ⊢
            rcases List.mem_map.mp ha with ⟨x, hx, hfa⟩
            exact List.mem_map.mpr ⟨x, List.mem_of_mem_take hx, hfa⟩
          have hle : ((noticias.take limit).map fonteOf).toFinset.card ≤ 1 := by
            have := Finset.card_le_card hsub
            omega
          have hne2 : noticias.take limit ≠ [] := by
            cases noticias with
            | nil => exact absurd rfl hnil
            | cons x xs =>
              cases limit with
              | zero => omega
              | succ k => simp
          have hge : 1 ≤ ((noticias.take limit).map fonteOf).toFinset.card := by
            obtain ⟨x, xs, hx⟩ := List.exists_cons_of_ne_nil hne2
            have hmem : fonteOf x ∈ ((noticias.take limit).map fonteOf).toFinset := by
              rw [hx]
              simp
            exact Finset.card_pos.mpr ⟨_, hmem⟩
          omega
        · have := List.length_take_le limit noticias
          omega
    · have hres : diversificar_noticias_por_fonte noticias limit =
          rrLoop limit (noticias.length + 1)
            (sortGroupsDesc (porFonte noticias)) [] [] := by
        simp only [diversificar_noticias_por_fonte]
        rw [if_neg hnil, if_neg hone]
      set gs := sortGroupsDesc (porFonte noticias) with hgs
      have hperm : gs.Perm (porFonte noticias) := sortGroupsDesc_perm _
      have hgslen : gs.length = (porFonte noticias).length := hperm.length_eq
      have hHne : ∀ p ∈ gs, p.2 ≠ [] := by
        intro p hp
        have hp2 : p ∈ porFonte noticias := hperm.mem_iff.mp hp
        exact (porFonte_group_spec noticias p.1 p.2
          (by rw [Prod.mk.eta]; exact hp2)).1
      have hkeys : ∀ p ∈ gs, ∀ x ∈ p.2, fonteOf x = p.1 := by
        intro p hp
        have hp2 : p ∈ porFonte noticias := hperm.mem_iff.mp hp
        exact (porFonte_group_spec noticias p.1 p.2
          (by rw [Prod.mk.eta]; exact hp2)).2
      have hjoinperm : (joinGroups gs).Perm noticias :=
        (sortGroupsDesc_join_perm _).trans (porFonte_join_perm _)
      have hjnodup : ((joinGroups gs).map DBNoticia.url).Nodup :=
        ((hjoinperm.map DBNoticia.url).nodup_iff).mpr hnodup
      have hKeq : (porFonte noticias).length =
          (noticias.map fonteOf).toFinset.card :=
        porFonte_length_card noticias
      rw [hres]
      by_cases hl0 : limit = 0
      · subst hl0
        have hz : rrLoop 0 (noticias.length + 1) gs [] [] = [] := by
          simp [rrLoop]
        rw [hz]
        simp
      · have hl1 : 1 ≤ limit := Nat.one_le_iff_ne_zero.mpr hl0
        have hgsne : gs ≠ [] := by
          intro hc
          rw [hc] at hgslen
          simp at hgslen
          omega
        obtain ⟨g0, gs0, hgsc⟩ := List.exists_cons_of_ne_nil hgsne
        obtain ⟨f0, l0⟩ := g0
        have hadded : (rrPass limit gs [] [] false).2.2.2 = true := by
          rw [hgsc]
          refine rrPass_first_added limit f0 l0 gs0 [] [] false
            (by simpa using hl1) ?_ (by simp)
          exact hHne (f0, l0) (by rw [hgsc]; exact List.mem_cons_self _ _)
        have hfirst : rrLoop limit (noticias.length + 1) gs [] [] =
            rrLoop limit noticias.length (rrPass limit gs [] [] false).1
              (rrPass limit gs [] [] false).2.1
              (rrPass limit gs [] [] false).2.2.1 := by
          simp only [rrLoop]
          rw [if_neg (by simp only [List.length_nil]; omega), if_pos hadded]
        have hheads : (rrPass limit gs [] [] false).2.1 =
            groupHeads (gs.take limit) := by
          have h := rrPass_heads limit gs [] [] false hHne (by simp) hjnodup
          simpa using h
        obtain ⟨ext, hext⟩ := rrLoop_extends limit noticias.length
          (rrPass limit gs [] [] false).1 (rrPass limit gs [] [] false).2.1
          (rrPass limit gs [] [] false).2.2.1
        have hlenpass : ((rrPass limit gs [] [] false).2.1).length ≤ limit :=
          rrPass_res_length limit gs [] [] false (by simp)
        have hlenres : (rrLoop limit noticias.length
            (rrPass limit gs [] [] false).1 (rrPass limit gs [] [] false).2.1
            (rrPass limit gs [] [] false).2.2.1).length ≤ limit :=
          rrLoop_length limit noticias.length _ _ _ hlenpass
        have hmemres : ∀ x ∈ rrLoop limit noticias.length
            (rrPass limit gs [] [] false).1 (rrPass limit gs [] [] false).2.1
            (rrPass limit gs [] [] false).2.2.1, x ∈ noticias := by
          intro x hx
          rcases rrLoop_mem limit noticias.length _ _ _ x hx with h2 | h2
          · rcases (rrPass_mem limit gs [] [] false).1 x h2 with h3 | h3
            · simp at h3
            · exact hjoinperm.mem_iff.mp h3
          · exact hjoinperm.mem_iff.mp
              ((rrPass_mem limit gs [] [] false).2 x h2)
        have hheadsmap : ((rrPass limit gs [] [] false).2.1).map fonteOf =
            (gs.take limit).map Prod.fst := by
          rw [hheads]
          exact groupHeads_map_fst _ (fun p hp =>
            ⟨hHne p (List.mem_of_mem_take hp), hkeys p (List.mem_of_mem_take hp)⟩)
        have htakenodup : ((gs.take limit).map Prod.fst).Nodup := by
          have hnd : (gs.map Prod.fst).Nodup :=
            ((hperm.map Prod.fst).nodup_iff).mpr (porFonte_fst_nodup noticias)
          rw [List.map_take]
          exact hnd.sublist (List.take_sublist _ _)
        have hcard_take : ((gs.take limit).map Prod.fst).toFinset.card =
            min ((porFonte noticias).length) limit := by
          rw [List.toFinset_card_of_nodup htakenodup]
          simp only [List.length_map, List.length_take, hgslen]
          omega
        have hlow : ((gs.take limit).map Prod.fst).toFinset ⊆
            ((rrLoop limit noticias.length
              (rrPass limit gs [] [] false).1 (rrPass limit gs [] [] false).2.1
              (rrPass limit gs [] [] false).2.2.1).map fonteOf).toFinset := by
          intro a ha
          rw [← hheadsmap] at ha
          simp only [List.mem_toFinset] at ha ⊢
          rw [hext, List.map_append]
          exact List.mem_append.mpr (Or.inl ha)
        have hsubK : ((rrLoop limit noticias.length
            (rrPass limit gs [] [] false).1 (rrPass limit gs [] [] false).2.1
            (rrPass limit gs [] [] false).2.2.1).map fonteOf).toFinset ⊆
            (noticias.map fonteOf).toFinset := by
          intro a ha
          simp only [List.mem_toFinset] at ha ⊢
          rcases List.mem_map.mp ha with ⟨x, hx, hfa⟩
          exact List.mem_map.mpr ⟨x, hmemres x hx, hfa⟩
        rw [hfirst]
        refine ⟨?_, hlenres⟩
        have h1 := Finset.card_le_card hlow
        have h2 := Finset.card_le_card hsubK
        have h3 : ((rrLoop limit noticias.length
            (rrPass limit gs [] [] false).1 (rrPass limit gs [] [] false).2.1
            (rrPass limit gs [] [] false).2.2.1).map fonteOf).toFinset.card ≤
            (rrLoop limit noticias.length
              (rrPass limit gs [] [] false).1 (rrPass limit gs [] [] false).2.1
              (rrPass limit gs [] [] false).2.2.1).length := by
          have h4 := List.toFinset_card_le ((rrLoop limit noticias.length
            (rrPass limit gs [] [] false).1 (rrPass limit gs [] [] false).2.1
            (rrPass limit gs [] [] false).2.2.1).map fonteOf)
          simpa using h4
        rw [hcard_take, hKeq] at h1
        omega

end Database

/-- C8: for every retrieval pool whose URLs are pairwise distinct (as the
`noticias` store guarantees through its URL conflict key) and every
requested limit, round-robin diversification returns at most `limit`
records drawn from exactly `min(K, limit)` distinct sources, where `K` is
the number of distinct sources in the pool: sources are grouped, ordered
by their best composite score, and the first round-robin pass admits one
record from each of the first `min(K, limit)` sources. -/
theorem claim_C8 (noticias : List Database.DBNoticia) (limit : ℕ)
    (hnodup : (noticias.map Database.DBNoticia.url).Nodup) :
    ((Database.diversificar_noticias_por_fonte noticias limit).map
        Database.fonteOf).toFinset.card
      = min ((noticias.map Database.fonteOf).toFinset.card) limit ∧
    (Database.diversificar_noticias_por_fonte noticias limit).length ≤ limit :=
  Database.diversificar_distinct_sources noticias limit hnodup

/-- C8 witness: a four-record pool over three sources with distinct URLs,
limit 2: the diversified output draws from min(3, 2) = 2 distinct sources
and has at most 2 records. -/
theorem claim_C8_witness :
    (Database.c8pool.map Database.DBNoticia.url).Nodup ∧
    (((Database.diversificar_noticias_por_fonte Database.c8pool 2).map
        Database.fonteOf).toFinset.card
      = min ((Database.c8pool.map Database.fonteOf).toFinset.card) 2 ∧
    (Database.diversificar_noticias_por_fonte Database.c8pool 2).length ≤ 2) :=
  ⟨by decide, claim_C8 Database.c8pool 2 (by decide)⟩
